import Mathlib

/-!
# Verification of the historai Zsh history parser

A shallow embedding of `internal/history/zsh.go` from the historai
repository.  Strings are modelled as lists of bytes (`List Nat`, each
element a byte value), matching the Go implementation which operates on
byte strings.  The embedding covers:

* `utf8Valid`, `toValidUTF8`, `decodeRune`, `decodeLastRune` — the parts
  of Go's `unicode/utf8` and `strings.ToValidUTF8` used by the parser;
* `trimSpace` — Go's `strings.TrimSpace` (ASCII fast path plus the
  rune-wise `TrimFunc` fallback, using `unicode.IsSpace`);
* `scanLines` — the line splitting performed by `bufio.Scanner` with the
  default `bufio.ScanLines` split function (split at LF, strip one
  trailing CR per line, final unterminated line emitted);
* `matchHeader` — the submatch extraction of the anchored regular
  expression `^: (\d\x7b10,\x7d):\d+;(.+)` on a single line;
* `parseInt64Digits` — `strconv.ParseInt(s, 10, 64)` restricted to the
  strings the parser feeds it (digit strings), including the clamping
  behaviour on range overflow;
* `parseHistory` — the scanning loop of `ZshHistoryReader.parseHistory`,
  with the read-error outcome of the underlying stream modelled by a
  boolean flag;
* `applyLimitFilter` — the recency window.
-/

/-- `HistoryEntry` from `internal/history/history.go`: a single command
from the shell history. -/
structure HistoryEntry where
  Timestamp : Int
  Command : List Nat
deriving DecidableEq, Repr

deriving instance DecidableEq for Except

/-- A byte is an ASCII decimal digit (regexp class `\d`). -/
def isDigit (b : Nat) : Bool := 0x30 ≤ b && b ≤ 0x39

/-- A byte is a UTF-8 continuation byte (`0x80..0xBF`). -/
def cont (b : Nat) : Bool := 0x80 ≤ b && b ≤ 0xBF

/-- Accepted second-byte ranges for a three-byte UTF-8 sequence, from the
`acceptRanges` table of Go's `unicode/utf8`. -/
def accept3 (b0 b1 : Nat) : Bool :=
  if b0 = 0xE0 then 0xA0 ≤ b1 && b1 ≤ 0xBF
  else if b0 = 0xED then 0x80 ≤ b1 && b1 ≤ 0x9F
  else cont b1

/-- Accepted second-byte ranges for a four-byte UTF-8 sequence, from the
`acceptRanges` table of Go's `unicode/utf8`. -/
def accept4 (b0 b1 : Nat) : Bool :=
  if b0 = 0xF0 then 0x90 ≤ b1 && b1 ≤ 0xBF
  else if b0 = 0xF4 then 0x80 ≤ b1 && b1 ≤ 0x8F
  else cont b1

/-- A well-formed two-byte UTF-8 sequence (per the `first` and
`acceptRanges` tables of Go's `unicode/utf8`). -/
def valid2 (b0 b1 : Nat) : Bool := 0xC2 ≤ b0 && b0 ≤ 0xDF && cont b1

/-- A well-formed three-byte UTF-8 sequence. -/
def valid3 (b0 b1 b2 : Nat) : Bool :=
  0xE0 ≤ b0 && b0 ≤ 0xEF && accept3 b0 b1 && cont b2

/-- A well-formed four-byte UTF-8 sequence. -/
def valid4 (b0 b1 b2 b3 : Nat) : Bool :=
  0xF0 ≤ b0 && b0 ≤ 0xF4 && accept4 b0 b1 && cont b2 && cont b3

/-- Go `utf8.Valid`: the byte string consists entirely of well-formed
UTF-8 sequences. -/
def utf8Valid : List Nat → Bool
  | [] => true
  | [b0] => b0 < 0x80
  | [b0, b1] =>
    if b0 < 0x80 then utf8Valid [b1] else valid2 b0 b1
  | [b0, b1, b2] =>
    if b0 < 0x80 then utf8Valid [b1, b2]
    else if valid2 b0 b1 then utf8Valid [b2]
    else valid3 b0 b1 b2
  | b0 :: b1 :: b2 :: b3 :: rest =>
    if b0 < 0x80 then utf8Valid (b1 :: b2 :: b3 :: rest)
    else if valid2 b0 b1 then utf8Valid (b2 :: b3 :: rest)
    else if valid3 b0 b1 b2 then utf8Valid (b3 :: rest)
    else if valid4 b0 b1 b2 b3 then utf8Valid rest
    else false

/-- The UTF-8 encoding of U+FFFD, the Unicode replacement character. -/
def replacementBytes : List Nat := [0xEF, 0xBF, 0xBD]

/-- Worker for `toValidUTF8`: the boolean argument records whether the
previous byte belonged to a run of invalid bytes (Go emits one
replacement per maximal invalid run, advancing one byte at a time over
invalid input and a whole sequence at a time over valid input). -/
def toValidUTF8Aux : List Nat → Bool → List Nat
  | [], _ => []
  | [b0], invalid =>
    if b0 < 0x80 then [b0]
    else if invalid then [] else replacementBytes
  | [b0, b1], invalid =>
    if b0 < 0x80 then b0 :: toValidUTF8Aux [b1] false
    else if valid2 b0 b1 then [b0, b1]
    else (if invalid then [] else replacementBytes) ++ toValidUTF8Aux [b1] true
  | [b0, b1, b2], invalid =>
    if b0 < 0x80 then b0 :: toValidUTF8Aux [b1, b2] false
    else if valid2 b0 b1 then b0 :: b1 :: toValidUTF8Aux [b2] false
    else if valid3 b0 b1 b2 then [b0, b1, b2]
    else (if invalid then [] else replacementBytes) ++ toValidUTF8Aux [b1, b2] true
  | b0 :: b1 :: b2 :: b3 :: rest, invalid =>
    if b0 < 0x80 then b0 :: toValidUTF8Aux (b1 :: b2 :: b3 :: rest) false
    else if valid2 b0 b1 then b0 :: b1 :: toValidUTF8Aux (b2 :: b3 :: rest) false
    else if valid3 b0 b1 b2 then b0 :: b1 :: b2 :: toValidUTF8Aux (b3 :: rest) false
    else if valid4 b0 b1 b2 b3 then b0 :: b1 :: b2 :: b3 :: toValidUTF8Aux rest false
    else (if invalid then [] else replacementBytes) ++
      toValidUTF8Aux (b1 :: b2 :: b3 :: rest) true

/-- Go `strings.ToValidUTF8(s, "�")`: copy `s`, replacing each
maximal run of bytes forming invalid UTF-8 with one U+FFFD. -/
def toValidUTF8 (s : List Nat) : List Nat := toValidUTF8Aux s false

/-- `ensureValidUTF8` from zsh.go: return the line unchanged when it is
valid UTF-8, otherwise replace invalid sequences. -/
def ensureValidUTF8 (lineBytes : List Nat) : List Nat :=
  if utf8Valid lineBytes then lineBytes else toValidUTF8 lineBytes

/-- The code point of a two-byte UTF-8 sequence. -/
def rune2 (b0 b1 : Nat) : Nat := (b0 - 0xC0) * 0x40 + (b1 - 0x80)

/-- The code point of a three-byte UTF-8 sequence. -/
def rune3 (b0 b1 b2 : Nat) : Nat :=
  (b0 - 0xE0) * 0x1000 + (b1 - 0x80) * 0x40 + (b2 - 0x80)

/-- The code point of a four-byte UTF-8 sequence. -/
def rune4 (b0 b1 b2 b3 : Nat) : Nat :=
  (b0 - 0xF0) * 0x40000 + (b1 - 0x80) * 0x1000 + (b2 - 0x80) * 0x40 + (b3 - 0x80)

/-- Go `utf8.DecodeRune`: decode the first rune of the byte string,
returning the code point and the number of bytes consumed.  Invalid
input yields U+FFFD with size 1 (size 0 on empty input). -/
def decodeRune : List Nat → Nat × Nat
  | [] => (0xFFFD, 0)
  | [b0] =>
    if b0 < 0x80 then (b0, 1) else (0xFFFD, 1)
  | [b0, b1] =>
    if b0 < 0x80 then (b0, 1)
    else if valid2 b0 b1 then (rune2 b0 b1, 2)
    else (0xFFFD, 1)
  | [b0, b1, b2] =>
    if b0 < 0x80 then (b0, 1)
    else if valid2 b0 b1 then (rune2 b0 b1, 2)
    else if valid3 b0 b1 b2 then (rune3 b0 b1 b2, 3)
    else (0xFFFD, 1)
  | b0 :: b1 :: b2 :: b3 :: _ =>
    if b0 < 0x80 then (b0, 1)
    else if valid2 b0 b1 then (rune2 b0 b1, 2)
    else if valid3 b0 b1 b2 then (rune3 b0 b1 b2, 3)
    else if valid4 b0 b1 b2 b3 then (rune4 b0 b1 b2 b3, 4)
    else (0xFFFD, 1)

/-- Go `utf8.RuneStart`: the byte is not a continuation byte. -/
def runeStart (b : Nat) : Bool := !cont b

/-- Go `utf8.DecodeLastRune`: decode the final rune of the byte string.
The search for the start of the final rune scans back at most four
bytes; the candidate window is then decoded and checked to span exactly
to the end. -/
def decodeLastRune (s : List Nat) : Nat × Nat :=
  match s.reverse with
  | [] => (0xFFFD, 0)
  | b0 :: back =>
    if b0 < 0x80 then (b0, 1)
    else
      let k : Nat :=
        match back with
        | [] => 1
        | [_] => 2
        | [b1, _] => if runeStart b1 then 2 else 3
        | [b1, b2, _] => if runeStart b1 then 2 else if runeStart b2 then 3 else 4
        | b1 :: b2 :: b3 :: _ :: _ =>
            if runeStart b1 then 2 else if runeStart b2 then 3
            else if runeStart b3 then 4 else 5
      let w := ((b0 :: back).take k).reverse
      let p := decodeRune w
      if p.2 = k then p else (0xFFFD, 1)

/-- Go `unicode.IsSpace` on a code point: White_Space property. -/
def isSpaceRune (r : Nat) : Bool :=
  (9 ≤ r && r ≤ 13) || r = 32 || r = 0x85 || r = 0xA0 || r = 0x1680 ||
  (0x2000 ≤ r && r ≤ 0x200A) || r = 0x2028 || r = 0x2029 || r = 0x202F ||
  r = 0x205F || r = 0x3000

/-- The `asciiSpace` table of Go's `strings` package. -/
def asciiSpace (b : Nat) : Bool :=
  b = 9 || b = 10 || b = 11 || b = 12 || b = 13 || b = 32

/-- Go `strings.TrimLeftFunc(s, unicode.IsSpace)`: drop leading
whitespace runes, decoding rune by rune. -/
def trimLeftFunc (s : List Nat) : List Nat :=
  if h : s = [] then []
  else
    let p := decodeRune s
    if isSpaceRune p.1 then trimLeftFunc (s.drop p.2) else s
termination_by s.length
decreasing_by
  simp only [List.length_drop]
  have hp : 1 ≤ (decodeRune s).2 := by
    obtain ⟨b0, rest, rfl⟩ := List.exists_cons_of_ne_nil h
    rcases rest with _ | ⟨b1, _ | ⟨b2, _ | ⟨b3, r⟩⟩⟩ <;>
      · simp only [decodeRune]
        (repeat' split) <;> exact Nat.succ_le_succ (Nat.zero_le _)
  have hs : 0 < s.length := List.length_pos.mpr h
  omega

/-- Go `strings.TrimRightFunc(s, unicode.IsSpace)`: drop trailing
whitespace runes, decoding the last rune repeatedly. -/
def trimRightFunc (s : List Nat) : List Nat :=
  if h : s = [] then []
  else
    let p := decodeLastRune s
    if isSpaceRune p.1 then trimRightFunc (s.take (s.length - p.2)) else s
termination_by s.length
decreasing_by
  have hp : 1 ≤ (decodeLastRune s).2 := by
    have hrev : s.reverse ≠ [] := by
      simpa [List.reverse_eq_nil_iff] using h
    obtain ⟨b0, back, hs⟩ := List.exists_cons_of_ne_nil hrev
    rcases back with _ | ⟨c1, _ | ⟨c2, _ | ⟨c3, _ | ⟨c4, r⟩⟩⟩⟩ <;>
      · simp only [decodeLastRune, hs]
        (repeat' split) <;> first | omega | exact Nat.succ_le_succ (Nat.zero_le _)
  have hs : 0 < s.length := List.length_pos.mpr h
  simp only [List.length_take]
  omega

/-- Go `strings.TrimFunc(s, unicode.IsSpace)`. -/
def trimFunc (s : List Nat) : List Nat := trimRightFunc (trimLeftFunc s)

/-- The right-to-left ASCII loop of `strings.TrimSpace`, operating on
the reversed byte string: drop trailing ASCII space bytes, falling back
to `TrimRightFunc` at the first non-ASCII byte. -/
def trimSpaceRightRev : List Nat → List Nat
  | [] => []
  | c :: rest =>
    if 0x80 ≤ c then (trimRightFunc (c :: rest).reverse).reverse
    else if asciiSpace c then trimSpaceRightRev rest
    else c :: rest

/-- Go `strings.TrimSpace`: the ASCII fast path with the unicode-aware
fallback. -/
def trimSpace : List Nat → List Nat
  | [] => []
  | c :: rest =>
    if 0x80 ≤ c then trimFunc (c :: rest)
    else if asciiSpace c then trimSpace rest
    else (trimSpaceRightRev (c :: rest).reverse).reverse

/-- Strip one trailing carriage return (`dropCR` of `bufio.ScanLines`). -/
def dropCR (l : List Nat) : List Nat :=
  if l.getLast? = some 0x0D then l.dropLast else l

/-- Worker for `scanLines`, carrying the bytes of the current
(unfinished) line. -/
def scanLinesAux : List Nat → List Nat → List (List Nat)
  | [], cur => if cur.isEmpty then [] else [dropCR cur]
  | b :: rest, cur =>
    if b = 0x0A then dropCR cur :: scanLinesAux rest []
    else scanLinesAux rest (cur ++ [b])

/-- The sequence of line tokens produced by `bufio.Scanner` with the
default `bufio.ScanLines` split function on the given byte stream:
split at LF, strip one trailing CR per line, and emit a final
unterminated line when the stream does not end with LF. -/
def scanLines (data : List Nat) : List (List Nat) := scanLinesAux data []

/-- The value of an ASCII digit string (most significant digit first). -/
def digitsVal (s : List Nat) : Nat := s.foldl (fun a b => a * 10 + (b - 0x30)) 0

/-- `strconv.ParseInt(s, 10, 64)` with the error discarded, for the
argument shapes produced by the header pattern (`s` matched `\d\x7b10,\x7d`
so it is a nonempty digit string): a value that exceeds the signed
64-bit range is clamped to `2^63 - 1` and the range error is ignored;
a string that is not a digit string would be a syntax error, returning 0. -/
def parseInt64Digits (s : List Nat) : Int :=
  if s = [] || !(s.all isDigit) then 0
  else if (2 : Nat) ^ 63 ≤ digitsVal s then 2 ^ 63 - 1
  else (digitsVal s : Int)

/-- Submatch extraction of the anchored regular expression
`^: (\d\x7b10,\x7d):\d+;(.+)` used by `parseHistory`, returning the
timestamp digits (group 1) and the command text (group 2) when the line
matches.  Greedy matching of `\d\x7b10,\x7d` and `\d+` is deterministic
here: each digit group must be followed by a non-digit literal, so both
groups take their whole maximal digit run, and `(.+)` takes everything
up to the end of the line or the first newline byte. -/
def matchHeader (l : List Nat) : Option (List Nat × List Nat) :=
  match l with
  | 0x3A :: 0x20 :: rest =>
    let d1 := rest.takeWhile isDigit
    if d1.length < 10 then none
    else
      match rest.dropWhile isDigit with
      | 0x3A :: rest2 =>
        let d2 := rest2.takeWhile isDigit
        if d2.length < 1 then none
        else
          match rest2.dropWhile isDigit with
          | 0x3B :: rest3 =>
            let g2 := rest3.takeWhile (fun b => b ≠ 0x0A)
            if g2.isEmpty then none else some (d1, g2)
          | _ => none
      | _ => none
  | _ => none

/-- The loop state of `parseHistory`: the finished entries, the
accumulated bytes of the currently open command, and its timestamp. -/
structure ParseState where
  entries : List HistoryEntry
  currentCommand : List Nat
  currentTimestamp : Int
deriving DecidableEq, Repr

/-- Finalization of an accumulated command before it is emitted:
`strings.ToValidUTF8(strings.TrimSpace(cur), "�")`. -/
def finalizeCommand (cur : List Nat) : List Nat := toValidUTF8 (trimSpace cur)

/-- One iteration of the scanning loop of `parseHistory` on a raw line. -/
def parseStep (st : ParseState) (originalLineBytes : List Nat) : ParseState :=
  let line := ensureValidUTF8 originalLineBytes
  match matchHeader line with
  | some (g1, g2) =>
    let entries :=
      if st.currentCommand.length > 0 then
        st.entries ++ [⟨st.currentTimestamp, finalizeCommand st.currentCommand⟩]
      else st.entries
    ⟨entries, toValidUTF8 g2, parseInt64Digits g1⟩
  | none =>
    if st.currentCommand.length > 0 then
      if st.currentCommand.getLast? = some 0x5C then
        ⟨st.entries, st.currentCommand.dropLast ++ line, st.currentTimestamp⟩
      else
        ⟨st.entries, st.currentCommand ++ 0x0A :: line, st.currentTimestamp⟩
    else st

/-- The record sequence obtained from a parse state once the stream is
exhausted: the very last command entry is added if one is open. -/
def flushState (st : ParseState) : List HistoryEntry :=
  if st.currentCommand.length > 0 then
    st.entries ++ [⟨st.currentTimestamp, finalizeCommand st.currentCommand⟩]
  else st.entries

/-- `parseHistory` on an already-split sequence of line tokens.  The
boolean records whether the underlying reader failed with a (non-EOF)
read error; in that case `scanner.Err()` is non-nil after the loop and
only the error is returned. -/
def parseLines (lines : List (List Nat)) (readErr : Bool) :
    Except String (List HistoryEntry) :=
  let st := lines.foldl parseStep ⟨[], [], 0⟩
  let allEntries := flushState st
  if readErr then .error "error reading history data" else .ok allEntries

/-- `ZshHistoryReader.parseHistory` on a byte stream: scan the stream
into lines and run the parsing loop.  `readErr` records whether the
stream terminates with a read error instead of EOF. -/
def parseHistory (data : List Nat) (readErr : Bool) :
    Except String (List HistoryEntry) :=
  parseLines (scanLines data) readErr

/-- `applyLimitFilter` from zsh.go: keep only the most recent `limit`
entries when `limit` is positive and smaller than the entry count. -/
def applyLimitFilter (entries : List HistoryEntry) (limit : Int) :
    List HistoryEntry :=
  if limit ≤ 0 || (entries.length : Int) ≤ limit then entries
  else entries.drop (entries.length - limit.toNat)

/-- UTF-8 encoding of one code point (as produced for a Lean `Char`). -/
def encodeChar (c : Char) : List Nat :=
  let n := c.toNat
  if n < 0x80 then [n]
  else if n < 0x800 then [0xC0 + n / 0x40, 0x80 + n % 0x40]
  else if n < 0x10000 then
    [0xE0 + n / 0x1000, 0x80 + n / 0x40 % 0x40, 0x80 + n % 0x40]
  else
    [0xF0 + n / 0x40000, 0x80 + n / 0x1000 % 0x40, 0x80 + n / 0x40 % 0x40,
      0x80 + n % 0x40]

/-- The UTF-8 bytes of a Lean string, for writing concrete test inputs. -/
def strBytes (s : String) : List Nat := (s.data.map encodeChar).flatten

/-- A minimal well-formed UTF-8 sequence: the encoding of exactly one
code point.  Valid byte strings are exactly concatenations of chunks. -/
def isChunk : List Nat → Bool
  | [b0] => b0 < 0x80
  | [b0, b1] => valid2 b0 b1
  | [b0, b1, b2] => valid3 b0 b1 b2
  | [b0, b1, b2, b3] => valid4 b0 b1 b2 b3
  | _ => false

/-- The code point encoded by a chunk. -/
def chunkRune (c : List Nat) : Nat := (decodeRune c).1

/-- A chunk encoding a whitespace code point. -/
def spaceChunk (c : List Nat) : Bool := isSpaceRune (chunkRune c)

/-- Drop leading whitespace chunks from a chunk decomposition. -/
def trimChunksLeft (cs : List (List Nat)) : List (List Nat) :=
  cs.dropWhile spaceChunk

/-- Drop trailing whitespace chunks from a chunk decomposition. -/
def trimChunksRight (cs : List (List Nat)) : List (List Nat) :=
  (cs.reverse.dropWhile spaceChunk).reverse

/-- The byte string neither begins nor ends with a whitespace rune. -/
def noEdgeWhitespace (s : List Nat) : Bool :=
  s.isEmpty ||
    (!isSpaceRune (decodeRune s).1 && !isSpaceRune (decodeLastRune s).1)

/-- A line that the classifier treats as a header: well encoded and
matching the header pattern. -/
def headerShaped (l : List Nat) : Bool := utf8Valid l && (matchHeader l).isSome

/-- The record a single header line gives rise to: the timestamp parsed
from its digit field, and the whitespace-trimmed remainder as the
command. -/
def recordOfLine (l : List Nat) : HistoryEntry :=
  match matchHeader l with
  | some (d, g2) => ⟨parseInt64Digits d, trimSpace g2⟩
  | none => ⟨0, []⟩

/-- A header-shaped line assembled from a timestamp digit field `d`, a
secondary field `s2` and a remainder `r`:  `: d:s2;r`. -/
def mkHeaderLine (d s2 r : List Nat) : List Nat :=
  0x3A :: 0x20 :: (d ++ 0x3A :: (s2 ++ 0x3B :: r))

/-- The invariant maintained by the scanning loop: the accumulated
command is valid UTF-8 and every finished entry has a valid,
edge-trimmed command. -/
def goodState (st : ParseState) : Prop :=
  utf8Valid st.currentCommand = true ∧
    ∀ e ∈ st.entries,
      utf8Valid e.Command = true ∧ noEdgeWhitespace e.Command = true

example : strBytes "ab" = [0x61, 0x62] := by decide

example : scanLines (strBytes "a\nbc\r\n\nd") = [strBytes "a", strBytes "bc", [], strBytes "d"] := by decide

example : matchHeader (strBytes ": 1700000000:0;ls -la") = some (strBytes "1700000000", strBytes "ls -la") := by decide

example : parseHistory (strBytes ": 1700000000:0;ls -la") false = .ok [⟨1700000000, strBytes "ls -la"⟩] := by decide

/-! ## Bounds for the byte-sequence predicates -/

theorem cont_bounds (b : Nat) (h : cont b = true) : 0x80 ≤ b ∧ b ≤ 0xBF := by
  simpa [cont] using h

theorem accept3_bounds (b0 b1 : Nat) (h : accept3 b0 b1 = true) :
    0x80 ≤ b1 ∧ b1 ≤ 0xBF := by
  unfold accept3 at h
  split at h
  · simp at h; omega
  · split at h
    · simp at h; omega
    · simp [cont] at h; omega

theorem accept4_bounds (b0 b1 : Nat) (h : accept4 b0 b1 = true) :
    0x80 ≤ b1 ∧ b1 ≤ 0xBF := by
  unfold accept4 at h
  split at h
  · simp at h; omega
  · split at h
    · simp at h; omega
    · simp [cont] at h; omega

theorem valid2_bounds (b0 b1 : Nat) (h : valid2 b0 b1 = true) :
    0xC2 ≤ b0 ∧ b0 ≤ 0xDF ∧ 0x80 ≤ b1 ∧ b1 ≤ 0xBF := by
  simp [valid2, cont] at h
  omega

theorem valid3_bounds (b0 b1 b2 : Nat) (h : valid3 b0 b1 b2 = true) :
    0xE0 ≤ b0 ∧ b0 ≤ 0xEF ∧ 0x80 ≤ b1 ∧ b1 ≤ 0xBF ∧ 0x80 ≤ b2 ∧ b2 ≤ 0xBF := by
  simp [valid3] at h
  obtain ⟨⟨⟨h0, h1⟩, ha⟩, hc⟩ := h
  have := accept3_bounds b0 b1 ha
  have := cont_bounds b2 hc
  omega

theorem valid4_bounds (b0 b1 b2 b3 : Nat) (h : valid4 b0 b1 b2 b3 = true) :
    0xF0 ≤ b0 ∧ b0 ≤ 0xF4 ∧ 0x80 ≤ b1 ∧ b1 ≤ 0xBF ∧
      0x80 ≤ b2 ∧ b2 ≤ 0xBF ∧ 0x80 ≤ b3 ∧ b3 ≤ 0xBF := by
  simp [valid4] at h
  obtain ⟨⟨⟨⟨h0, h1⟩, ha⟩, hc⟩, hd⟩ := h
  have := accept4_bounds b0 b1 ha
  have := cont_bounds b2 hc
  have := cont_bounds b3 hd
  omega

/-! ## Chunk structure of valid byte strings -/

theorem utf8Valid_cons_ascii (b : Nat) (t : List Nat) (h : b < 0x80) :
    utf8Valid (b :: t) = utf8Valid t := by
  rcases t with _ | ⟨c1, _ | ⟨c2, _ | ⟨c3, r⟩⟩⟩ <;> simp [utf8Valid, h]

theorem utf8Valid_cons2 (b0 b1 : Nat) (t : List Nat) (h : valid2 b0 b1 = true) :
    utf8Valid (b0 :: b1 :: t) = utf8Valid t := by
  have hb := valid2_bounds b0 b1 h
  have h0 : ¬ b0 < 0x80 := by omega
  rcases t with _ | ⟨c1, _ | ⟨c2, r⟩⟩ <;> simp [utf8Valid, h0, h]

theorem utf8Valid_cons3 (b0 b1 b2 : Nat) (t : List Nat)
    (h : valid3 b0 b1 b2 = true) :
    utf8Valid (b0 :: b1 :: b2 :: t) = utf8Valid t := by
  have hb := valid3_bounds b0 b1 b2 h
  have h0 : ¬ b0 < 0x80 := by omega
  have h2 : valid2 b0 b1 = false := by simp [valid2]; omega
  rcases t with _ | ⟨c1, r⟩ <;> simp [utf8Valid, h0, h2, h]

theorem utf8Valid_cons4 (b0 b1 b2 b3 : Nat) (t : List Nat)
    (h : valid4 b0 b1 b2 b3 = true) :
    utf8Valid (b0 :: b1 :: b2 :: b3 :: t) = utf8Valid t := by
  have hb := valid4_bounds b0 b1 b2 b3 h
  have h0 : ¬ b0 < 0x80 := by omega
  have h2 : valid2 b0 b1 = false := by simp [valid2]; omega
  have h3 : valid3 b0 b1 b2 = false := by simp [valid3]; omega
  simp [utf8Valid, h0, h2, h3, h]

theorem chunk_ne_nil (c : List Nat) (h : isChunk c = true) : c ≠ [] := by
  intro hc
  subst hc
  simp [isChunk] at h

theorem chunk_cons_valid (c : List Nat) (h : isChunk c = true) (t : List Nat) :
    utf8Valid (c ++ t) = utf8Valid t := by
  rcases c with _ | ⟨b0, _ | ⟨b1, _ | ⟨b2, _ | ⟨b3, _ | ⟨b4, r⟩⟩⟩⟩⟩
  · simp [isChunk] at h
  · simp only [isChunk, decide_eq_true_eq] at h
    simpa using utf8Valid_cons_ascii b0 t h
  · simp only [isChunk] at h
    simpa using utf8Valid_cons2 b0 b1 t h
  · simp only [isChunk] at h
    simpa using utf8Valid_cons3 b0 b1 b2 t h
  · simp only [isChunk] at h
    simpa using utf8Valid_cons4 b0 b1 b2 b3 t h
  · simp [isChunk] at h

theorem chunks_flatten_valid (cs : List (List Nat))
    (h : ∀ c ∈ cs, isChunk c = true) : utf8Valid cs.flatten = true := by
  induction cs with
  | nil => simp [utf8Valid]
  | cons c cs ih =>
    simp only [List.flatten_cons]
    rw [chunk_cons_valid c (h c (by simp))]
    exact ih fun d hd => h d (by simp [hd])

theorem chunks_cons_case (c : List Nat) (hc : isChunk c = true) (t : List Nat)
    (h : ∃ cs : List (List Nat), t = cs.flatten ∧ ∀ d ∈ cs, isChunk d = true) :
    ∃ cs : List (List Nat), c ++ t = cs.flatten ∧ ∀ d ∈ cs, isChunk d = true := by
  obtain ⟨cs, rfl, hall⟩ := h
  refine ⟨c :: cs, by simp, ?_⟩
  intro d hd
  rcases List.mem_cons.mp hd with rfl | hd
  · exact hc
  · exact hall d hd

theorem utf8Valid_to_chunks (s : List Nat) :
    utf8Valid s = true →
    ∃ cs : List (List Nat), s = cs.flatten ∧ ∀ c ∈ cs, isChunk c = true := by
  induction s using utf8Valid.induct with
  | case1 =>
    intro _
    exact ⟨[], by simp, by simp⟩
  | case2 b0 =>
    intro h
    simp only [utf8Valid, decide_eq_true_eq] at h
    exact ⟨[[b0]], by simp, by simp [isChunk, h]⟩
  | case3 b0 b1 hb ih =>
    intro h
    rw [utf8Valid, if_pos hb] at h
    exact chunks_cons_case [b0] (by simp [isChunk, hb]) [b1] (ih h)
  | case4 b0 b1 hb =>
    intro h
    rw [utf8Valid, if_neg hb] at h
    exact ⟨[[b0, b1]], by simp, by simp [isChunk, h]⟩
  | case5 b0 b1 b2 hb ih =>
    intro h
    rw [utf8Valid, if_pos hb] at h
    exact chunks_cons_case [b0] (by simp [isChunk, hb]) [b1, b2] (ih h)
  | case6 b0 b1 b2 hb h2 ih =>
    intro h
    rw [utf8Valid, if_neg hb, if_pos h2] at h
    exact chunks_cons_case [b0, b1] (by simp [isChunk, h2]) [b2] (ih h)
  | case7 b0 b1 b2 hb h2 =>
    intro h
    rw [utf8Valid, if_neg hb, if_neg h2] at h
    exact ⟨[[b0, b1, b2]], by simp, by simp [isChunk, h]⟩
  | case8 b0 b1 b2 b3 rest hb ih =>
    intro h
    rw [utf8Valid, if_pos hb] at h
    exact chunks_cons_case [b0] (by simp [isChunk, hb]) _ (ih h)
  | case9 b0 b1 b2 b3 rest hb h2 ih =>
    intro h
    rw [utf8Valid, if_neg hb, if_pos h2] at h
    exact chunks_cons_case [b0, b1] (by simp [isChunk, h2]) _ (ih h)
  | case10 b0 b1 b2 b3 rest hb h2 h3 ih =>
    intro h
    rw [utf8Valid, if_neg hb, if_neg h2, if_pos h3] at h
    exact chunks_cons_case [b0, b1, b2] (by simp [isChunk, h3]) _ (ih h)
  | case11 b0 b1 b2 b3 rest hb h2 h3 h4 ih =>
    intro h
    rw [utf8Valid, if_neg hb, if_neg h2, if_neg h3, if_pos h4] at h
    exact chunks_cons_case [b0, b1, b2, b3] (by simp [isChunk, h4]) _ (ih h)
  | case12 b0 b1 b2 b3 rest hb h2 h3 h4 =>
    intro h
    rw [utf8Valid, if_neg hb, if_neg h2, if_neg h3, if_neg h4] at h
    exact absurd h (by simp)

/-! ## Properties of the replacement pass -/

theorem toValidUTF8Aux_ascii (b : Nat) (hb : b < 0x80) (t : List Nat) (inv : Bool) :
    toValidUTF8Aux (b :: t) inv = b :: toValidUTF8Aux t false := by
  rcases t with _ | ⟨c1, _ | ⟨c2, _ | ⟨c3, r⟩⟩⟩ <;> simp [toValidUTF8Aux, hb]

theorem toValidUTF8Aux_two (b0 b1 : Nat) (h : valid2 b0 b1 = true)
    (t : List Nat) (inv : Bool) :
    toValidUTF8Aux (b0 :: b1 :: t) inv = b0 :: b1 :: toValidUTF8Aux t false := by
  have hb := valid2_bounds b0 b1 h
  have h0 : ¬ b0 < 0x80 := by omega
  rcases t with _ | ⟨c1, _ | ⟨c2, r⟩⟩ <;> simp [toValidUTF8Aux, h0, h]

theorem toValidUTF8Aux_three (b0 b1 b2 : Nat) (h : valid3 b0 b1 b2 = true)
    (t : List Nat) (inv : Bool) :
    toValidUTF8Aux (b0 :: b1 :: b2 :: t) inv =
      b0 :: b1 :: b2 :: toValidUTF8Aux t false := by
  have hb := valid3_bounds b0 b1 b2 h
  have h0 : ¬ b0 < 0x80 := by omega
  have h2 : valid2 b0 b1 = false := by simp [valid2]; omega
  rcases t with _ | ⟨c1, r⟩ <;> simp [toValidUTF8Aux, h0, h2, h]

theorem toValidUTF8Aux_four (b0 b1 b2 b3 : Nat) (h : valid4 b0 b1 b2 b3 = true)
    (t : List Nat) (inv : Bool) :
    toValidUTF8Aux (b0 :: b1 :: b2 :: b3 :: t) inv =
      b0 :: b1 :: b2 :: b3 :: toValidUTF8Aux t false := by
  have hb := valid4_bounds b0 b1 b2 b3 h
  have h0 : ¬ b0 < 0x80 := by omega
  have h2 : valid2 b0 b1 = false := by simp [valid2]; omega
  have h3 : valid3 b0 b1 b2 = false := by simp [valid3]; omega
  simp [toValidUTF8Aux, h0, h2, h3, h]

theorem chunk_toValid (c : List Nat) (h : isChunk c = true) (t : List Nat)
    (inv : Bool) :
    toValidUTF8Aux (c ++ t) inv = c ++ toValidUTF8Aux t false := by
  rcases c with _ | ⟨b0, _ | ⟨b1, _ | ⟨b2, _ | ⟨b3, _ | ⟨b4, r⟩⟩⟩⟩⟩
  · simp [isChunk] at h
  · simp only [isChunk, decide_eq_true_eq] at h
    simpa using toValidUTF8Aux_ascii b0 h t inv
  · simp only [isChunk] at h
    simpa using toValidUTF8Aux_two b0 b1 h t inv
  · simp only [isChunk] at h
    simpa using toValidUTF8Aux_three b0 b1 b2 h t inv
  · simp only [isChunk] at h
    simpa using toValidUTF8Aux_four b0 b1 b2 b3 h t inv
  · simp [isChunk] at h

theorem chunks_toValid (cs : List (List Nat))
    (h : ∀ c ∈ cs, isChunk c = true) (inv : Bool) :
    toValidUTF8Aux cs.flatten inv = cs.flatten := by
  induction cs generalizing inv with
  | nil => simp [toValidUTF8Aux]
  | cons c cs ih =>
    simp only [List.flatten_cons]
    rw [chunk_toValid c (h c (by simp))]
    rw [ih (fun d hd => h d (by simp [hd])) false]

theorem toValidUTF8_of_valid (s : List Nat) (h : utf8Valid s = true) :
    toValidUTF8 s = s := by
  obtain ⟨cs, rfl, hall⟩ := utf8Valid_to_chunks s h
  exact chunks_toValid cs hall false

theorem replacement_isChunk : isChunk replacementBytes = true := by decide

theorem utf8Valid_toValidUTF8Aux (s : List Nat) (inv : Bool) :
    utf8Valid (toValidUTF8Aux s inv) = true := by
  induction s, inv using toValidUTF8Aux.induct with
  | case1 x => simp [toValidUTF8Aux, utf8Valid]
  | case2 b0 inv hb => simp [toValidUTF8Aux, hb, utf8Valid]
  | case3 b0 hb => simp [toValidUTF8Aux, hb, utf8Valid]
  | case4 b0 inv hb hinv =>
    simp only [toValidUTF8Aux, if_neg hb, if_neg hinv]
    decide
  | case5 b0 b1 inv hb ih =>
    simp only [toValidUTF8Aux, if_pos hb]
    rw [utf8Valid_cons_ascii _ _ hb]
    exact ih
  | case6 b0 b1 inv hb h2 =>
    simp only [toValidUTF8Aux, if_neg hb, if_pos h2]
    rw [show [b0, b1] = [b0, b1] ++ ([] : List Nat) by simp,
      chunk_cons_valid [b0, b1] (by simp [isChunk, h2])]
    simp [utf8Valid]
  | case7 b0 b1 inv hb h2 ih =>
    rw [toValidUTF8Aux, if_neg hb, if_neg h2]
    cases inv <;> simp [chunk_cons_valid _ replacement_isChunk, ih]
  | case8 b0 b1 b2 inv hb ih =>
    simp only [toValidUTF8Aux, if_pos hb]
    rw [utf8Valid_cons_ascii _ _ hb]
    exact ih
  | case9 b0 b1 b2 inv hb h2 ih =>
    simp only [toValidUTF8Aux, if_neg hb, if_pos h2]
    rw [utf8Valid_cons2 _ _ _ h2]
    exact ih
  | case10 b0 b1 b2 inv hb h2 h3 =>
    simp only [toValidUTF8Aux, if_neg hb, if_neg h2, if_pos h3]
    rw [show [b0, b1, b2] = [b0, b1, b2] ++ ([] : List Nat) by simp,
      chunk_cons_valid [b0, b1, b2] (by simp [isChunk, h3])]
    simp [utf8Valid]
  | case11 b0 b1 b2 inv hb h2 h3 ih =>
    rw [toValidUTF8Aux, if_neg hb, if_neg h2, if_neg h3]
    cases inv <;> simp [chunk_cons_valid _ replacement_isChunk, ih]
  | case12 b0 b1 b2 b3 rest inv hb ih =>
    simp only [toValidUTF8Aux, if_pos hb]
    rw [utf8Valid_cons_ascii _ _ hb]
    exact ih
  | case13 b0 b1 b2 b3 rest inv hb h2 ih =>
    simp only [toValidUTF8Aux, if_neg hb, if_pos h2]
    rw [utf8Valid_cons2 _ _ _ h2]
    exact ih
  | case14 b0 b1 b2 b3 rest inv hb h2 h3 ih =>
    simp only [toValidUTF8Aux, if_neg hb, if_neg h2, if_pos h3]
    rw [utf8Valid_cons3 _ _ _ _ h3]
    exact ih
  | case15 b0 b1 b2 b3 rest inv hb h2 h3 h4 ih =>
    simp only [toValidUTF8Aux, if_neg hb, if_neg h2, if_neg h3, if_pos h4]
    rw [utf8Valid_cons4 _ _ _ _ _ h4]
    exact ih
  | case16 b0 b1 b2 b3 rest inv hb h2 h3 h4 ih =>
    simp only [toValidUTF8Aux, if_neg hb, if_neg h2, if_neg h3, if_neg h4]
    cases inv <;> simp [chunk_cons_valid _ replacement_isChunk, ih]

theorem utf8Valid_toValidUTF8 (s : List Nat) :
    utf8Valid (toValidUTF8 s) = true := utf8Valid_toValidUTF8Aux s false

theorem utf8Valid_ensure (l : List Nat) :
    utf8Valid (ensureValidUTF8 l) = true := by
  unfold ensureValidUTF8
  split
  · assumption
  · exact utf8Valid_toValidUTF8 l

theorem utf8Valid_append (a b : List Nat) (ha : utf8Valid a = true)
    (hb : utf8Valid b = true) : utf8Valid (a ++ b) = true := by
  obtain ⟨cs, rfl, hcs⟩ := utf8Valid_to_chunks a ha
  obtain ⟨ds, rfl, hds⟩ := utf8Valid_to_chunks b hb
  rw [show cs.flatten ++ ds.flatten = (cs ++ ds).flatten by simp]
  refine chunks_flatten_valid (cs ++ ds) ?_
  intro c hc
  rcases List.mem_append.mp hc with hc | hc
  · exact hcs c hc
  · exact hds c hc

/-! ## Decoding at chunk boundaries -/

theorem decodeRune_ascii (b : Nat) (hb : b < 0x80) (t : List Nat) :
    decodeRune (b :: t) = (b, 1) := by
  rcases t with _ | ⟨c1, _ | ⟨c2, _ | ⟨c3, r⟩⟩⟩ <;> simp [decodeRune, hb]

theorem decodeRune_two (b0 b1 : Nat) (h : valid2 b0 b1 = true) (t : List Nat) :
    decodeRune (b0 :: b1 :: t) = (rune2 b0 b1, 2) := by
  have hb := valid2_bounds b0 b1 h
  have h0 : ¬ b0 < 0x80 := by omega
  rcases t with _ | ⟨c1, _ | ⟨c2, r⟩⟩ <;> simp [decodeRune, h0, h]

theorem decodeRune_three (b0 b1 b2 : Nat) (h : valid3 b0 b1 b2 = true)
    (t : List Nat) : decodeRune (b0 :: b1 :: b2 :: t) = (rune3 b0 b1 b2, 3) := by
  have hb := valid3_bounds b0 b1 b2 h
  have h0 : ¬ b0 < 0x80 := by omega
  have h2 : valid2 b0 b1 = false := by simp [valid2]; omega
  rcases t with _ | ⟨c1, r⟩ <;> simp [decodeRune, h0, h2, h]

theorem decodeRune_four (b0 b1 b2 b3 : Nat) (h : valid4 b0 b1 b2 b3 = true)
    (t : List Nat) :
    decodeRune (b0 :: b1 :: b2 :: b3 :: t) = (rune4 b0 b1 b2 b3, 4) := by
  have hb := valid4_bounds b0 b1 b2 b3 h
  have h0 : ¬ b0 < 0x80 := by omega
  have h2 : valid2 b0 b1 = false := by simp [valid2]; omega
  have h3 : valid3 b0 b1 b2 = false := by simp [valid3]; omega
  simp [decodeRune, h0, h2, h3, h]

theorem decodeRune_chunk_front (c : List Nat) (h : isChunk c = true)
    (t : List Nat) : decodeRune (c ++ t) = (chunkRune c, c.length) := by
  rcases c with _ | ⟨b0, _ | ⟨b1, _ | ⟨b2, _ | ⟨b3, _ | ⟨b4, r⟩⟩⟩⟩⟩
  · simp [isChunk] at h
  · simp only [isChunk, decide_eq_true_eq] at h
    have hc : chunkRune [b0] = b0 := by simp [chunkRune, decodeRune, h]
    simp [decodeRune_ascii b0 h, hc]
  · simp only [isChunk] at h
    have hb := valid2_bounds b0 b1 h
    have h0 : ¬ b0 < 0x80 := by omega
    have hc : chunkRune [b0, b1] = rune2 b0 b1 := by
      simp [chunkRune, decodeRune, h0, h]
    simp [decodeRune_two b0 b1 h, hc]
  · simp only [isChunk] at h
    have hb := valid3_bounds b0 b1 b2 h
    have h0 : ¬ b0 < 0x80 := by omega
    have h2 : valid2 b0 b1 = false := by simp [valid2]; omega
    have hc : chunkRune [b0, b1, b2] = rune3 b0 b1 b2 := by
      simp [chunkRune, decodeRune, h0, h2, h]
    simp [decodeRune_three b0 b1 b2 h, hc]
  · simp only [isChunk] at h
    have hb := valid4_bounds b0 b1 b2 b3 h
    have h0 : ¬ b0 < 0x80 := by omega
    have h2 : valid2 b0 b1 = false := by simp [valid2]; omega
    have h3 : valid3 b0 b1 b2 = false := by simp [valid3]; omega
    have hc : chunkRune [b0, b1, b2, b3] = rune4 b0 b1 b2 b3 := by
      simp [chunkRune, decodeRune, h0, h2, h3, h]
    simp [decodeRune_four b0 b1 b2 b3 h, hc]
  · simp [isChunk] at h

theorem decodeRune_chunk (c : List Nat) (h : isChunk c = true) :
    decodeRune c = (chunkRune c, c.length) := by
  simpa using decodeRune_chunk_front c h []

theorem decodeLastRune_append_one (a : List Nat) (b : Nat) (hb : b < 0x80) :
    decodeLastRune (a ++ [b]) = (b, 1) := by
  have hrev : (a ++ [b]).reverse = b :: a.reverse := by simp
  simp [decodeLastRune, hrev, hb]

theorem decodeLastRune_append_two (a : List Nat) (b0 b1 : Nat)
    (h : valid2 b0 b1 = true) :
    decodeLastRune (a ++ [b0, b1]) = (rune2 b0 b1, 2) := by
  have hb := valid2_bounds b0 b1 h
  have h0 : ¬ b0 < 0x80 := by omega
  have hn1 : ¬ b1 < 0x80 := by omega
  have hrs0 : runeStart b0 = true := by simp [runeStart, cont]; omega
  have hrev : (a ++ [b0, b1]).reverse = b1 :: b0 :: a.reverse := by simp
  rcases ha : a.reverse with _ | ⟨x, _ | ⟨y, _ | ⟨z, w⟩⟩⟩ <;>
    simp [decodeLastRune, hrev, ha, hn1, hrs0, decodeRune, h0, h]

theorem decodeLastRune_append_three (a : List Nat) (b0 b1 b2 : Nat)
    (h : valid3 b0 b1 b2 = true) :
    decodeLastRune (a ++ [b0, b1, b2]) = (rune3 b0 b1 b2, 3) := by
  have hb := valid3_bounds b0 b1 b2 h
  have h0 : ¬ b0 < 0x80 := by omega
  have h2 : valid2 b0 b1 = false := by simp [valid2]; omega
  have hn2 : ¬ b2 < 0x80 := by omega
  have hrs0 : runeStart b0 = true := by simp [runeStart, cont]; omega
  have hrs1 : runeStart b1 = false := by simp [runeStart, cont]; omega
  have hrev : (a ++ [b0, b1, b2]).reverse = b2 :: b1 :: b0 :: a.reverse := by simp
  rcases ha : a.reverse with _ | ⟨x, _ | ⟨y, _ | ⟨z, w⟩⟩⟩ <;>
    simp [decodeLastRune, hrev, ha, hn2, hrs0, hrs1, decodeRune, h0, h2, h]

theorem decodeLastRune_append_four (a : List Nat) (b0 b1 b2 b3 : Nat)
    (h : valid4 b0 b1 b2 b3 = true) :
    decodeLastRune (a ++ [b0, b1, b2, b3]) = (rune4 b0 b1 b2 b3, 4) := by
  have hb := valid4_bounds b0 b1 b2 b3 h
  have h0 : ¬ b0 < 0x80 := by omega
  have h2 : valid2 b0 b1 = false := by simp [valid2]; omega
  have h3 : valid3 b0 b1 b2 = false := by simp [valid3]; omega
  have hn3 : ¬ b3 < 0x80 := by omega
  have hrs0 : runeStart b0 = true := by simp [runeStart, cont]; omega
  have hrs1 : runeStart b1 = false := by simp [runeStart, cont]; omega
  have hrs2 : runeStart b2 = false := by simp [runeStart, cont]; omega
  have hrev : (a ++ [b0, b1, b2, b3]).reverse = b3 :: b2 :: b1 :: b0 :: a.reverse := by
    simp
  rcases ha : a.reverse with _ | ⟨x, _ | ⟨y, _ | ⟨z, w⟩⟩⟩ <;>
    simp [decodeLastRune, hrev, ha, hn3, hrs0, hrs1, hrs2, decodeRune, h0, h2, h3, h]

theorem decodeLastRune_append_chunk (a c : List Nat) (h : isChunk c = true) :
    decodeLastRune (a ++ c) = (chunkRune c, c.length) := by
  rcases c with _ | ⟨b0, _ | ⟨b1, _ | ⟨b2, _ | ⟨b3, _ | ⟨b4, r⟩⟩⟩⟩⟩
  · simp [isChunk] at h
  · simp only [isChunk, decide_eq_true_eq] at h
    have hc : chunkRune [b0] = b0 := by simp [chunkRune, decodeRune, h]
    simp [decodeLastRune_append_one a b0 h, hc]
  · simp only [isChunk] at h
    have hb := valid2_bounds b0 b1 h
    have h0 : ¬ b0 < 0x80 := by omega
    have hc : chunkRune [b0, b1] = rune2 b0 b1 := by
      simp [chunkRune, decodeRune, h0, h]
    simp [decodeLastRune_append_two a b0 b1 h, hc]
  · simp only [isChunk] at h
    have hb := valid3_bounds b0 b1 b2 h
    have h0 : ¬ b0 < 0x80 := by omega
    have h2 : valid2 b0 b1 = false := by simp [valid2]; omega
    have hc : chunkRune [b0, b1, b2] = rune3 b0 b1 b2 := by
      simp [chunkRune, decodeRune, h0, h2, h]
    simp [decodeLastRune_append_three a b0 b1 b2 h, hc]
  · simp only [isChunk] at h
    have hb := valid4_bounds b0 b1 b2 b3 h
    have h0 : ¬ b0 < 0x80 := by omega
    have h2 : valid2 b0 b1 = false := by simp [valid2]; omega
    have h3 : valid3 b0 b1 b2 = false := by simp [valid3]; omega
    have hc : chunkRune [b0, b1, b2, b3] = rune4 b0 b1 b2 b3 := by
      simp [chunkRune, decodeRune, h0, h2, h3, h]
    simp [decodeLastRune_append_four a b0 b1 b2 b3 h, hc]
  · simp [isChunk] at h

/-! ## Characterization of the trim functions on valid strings -/

theorem trimLeftFunc_nil : trimLeftFunc [] = [] := by
  rw [trimLeftFunc]
  simp

theorem trimLeftFunc_chunk (c : List Nat) (h : isChunk c = true) (t : List Nat) :
    trimLeftFunc (c ++ t) =
      if spaceChunk c then trimLeftFunc t else c ++ t := by
  rw [trimLeftFunc]
  rw [dif_neg (by simp [chunk_ne_nil c h])]
  simp only [decodeRune_chunk_front c h t, spaceChunk]
  rw [List.drop_left]

theorem trimLeftFunc_flatten (cs : List (List Nat))
    (h : ∀ c ∈ cs, isChunk c = true) :
    trimLeftFunc cs.flatten = (cs.dropWhile spaceChunk).flatten := by
  induction cs with
  | nil => simpa using trimLeftFunc_nil
  | cons c cs ih =>
    simp only [List.flatten_cons, List.dropWhile_cons]
    rw [trimLeftFunc_chunk c (h c (by simp))]
    by_cases hsp : spaceChunk c = true
    · simp [hsp, ih fun d hd => h d (by simp [hd])]
    · simp only [Bool.not_eq_true] at hsp
      simp [hsp]

theorem trimRightFunc_nil : trimRightFunc [] = [] := by
  rw [trimRightFunc]
  simp

theorem trimRightFunc_concat (a c : List Nat) (h : isChunk c = true) :
    trimRightFunc (a ++ c) =
      if spaceChunk c then trimRightFunc a else a ++ c := by
  rw [trimRightFunc]
  rw [dif_neg (by simp [chunk_ne_nil c h])]
  simp only [decodeLastRune_append_chunk a c h, spaceChunk]
  have hl : (a ++ c).length - c.length = a.length := by
    simp [List.length_append]
  rw [hl, List.take_left]

theorem trimRightFunc_flatten (cs : List (List Nat))
    (h : ∀ c ∈ cs, isChunk c = true) :
    trimRightFunc cs.flatten = (trimChunksRight cs).flatten := by
  induction cs using List.reverseRecOn with
  | nil => simpa [trimChunksRight] using trimRightFunc_nil
  | append_singleton cs c ih =>
    have hflat : (cs ++ [c]).flatten = cs.flatten ++ c := by simp
    rw [hflat, trimRightFunc_concat cs.flatten c (h c (by simp))]
    simp only [trimChunksRight, List.reverse_append, List.reverse_cons,
      List.reverse_nil, List.nil_append, List.singleton_append,
      List.dropWhile_cons]
    by_cases hsp : spaceChunk c = true
    · simp only [hsp, if_pos rfl]
      simpa [trimChunksRight] using ih fun d hd => h d (by simp [hd])
    · simp only [Bool.not_eq_true] at hsp
      simp [hsp]

theorem trimFunc_flatten (cs : List (List Nat))
    (h : ∀ c ∈ cs, isChunk c = true) :
    trimFunc cs.flatten = (trimChunksRight (trimChunksLeft cs)).flatten := by
  unfold trimFunc
  rw [trimLeftFunc_flatten cs h]
  refine trimRightFunc_flatten (cs.dropWhile spaceChunk) ?_
  intro c hc
  exact h c ((List.dropWhile_sublist spaceChunk).subset hc)

theorem spaceRune_ascii (b : Nat) (hb : b < 0x80) :
    isSpaceRune b = asciiSpace b := by
  rw [Bool.eq_iff_iff]
  simp only [isSpaceRune, asciiSpace]
  simp only [Bool.or_eq_true, Bool.and_eq_true, decide_eq_true_eq]
  omega

theorem spaceChunk_one (b : Nat) (hb : b < 0x80) :
    spaceChunk [b] = asciiSpace b := by
  rw [spaceChunk, chunkRune, decodeRune, if_pos hb]
  exact spaceRune_ascii b hb

theorem trimSpaceRightRev_flatten (cs : List (List Nat))
    (h : ∀ c ∈ cs, isChunk c = true) :
    trimSpaceRightRev cs.flatten.reverse = ((trimChunksRight cs).flatten).reverse := by
  induction cs using List.reverseRecOn with
  | nil => simp [trimSpaceRightRev, trimChunksRight]
  | append_singleton cs c ih =>
    have hch := h c (by simp)
    have hall : ∀ d ∈ cs, isChunk d = true := fun d hd => h d (by simp [hd])
    have hright : trimChunksRight (cs ++ [c]) =
        if spaceChunk c then trimChunksRight cs else cs ++ [c] := by
      simp only [trimChunksRight, List.reverse_append, List.reverse_cons,
        List.reverse_nil, List.nil_append, List.singleton_append,
        List.dropWhile_cons]
      by_cases hsp : spaceChunk c = true
      · simp [hsp, trimChunksRight]
      · simp only [Bool.not_eq_true] at hsp
        simp [hsp]
    rcases c with _ | ⟨b0, _ | ⟨b1, _ | ⟨b2, _ | ⟨b3, _ | ⟨b4, r⟩⟩⟩⟩⟩
    · simp [isChunk] at hch
    · simp only [isChunk, decide_eq_true_eq] at hch
      have hflat : ((cs ++ [[b0]]).flatten).reverse = b0 :: cs.flatten.reverse := by
        simp
      rw [hflat, trimSpaceRightRev, if_neg (by omega)]
      rw [hright, spaceChunk_one b0 hch]
      by_cases hsp : asciiSpace b0 = true
      · rw [if_pos hsp, if_pos hsp]
        exact ih hall
      · simp only [Bool.not_eq_true] at hsp
        rw [if_neg (by simp [hsp]), if_neg (by simp [hsp]), hflat]
    · simp only [isChunk] at hch
      have hb := valid2_bounds b0 b1 hch
      have hflat : ((cs ++ [[b0, b1]]).flatten).reverse =
          b1 :: b0 :: cs.flatten.reverse := by simp
      rw [hflat, trimSpaceRightRev, if_pos (by omega)]
      have hrev : (b1 :: b0 :: cs.flatten.reverse).reverse =
          (cs ++ [[b0, b1]]).flatten := by simp
      rw [hrev, trimRightFunc_flatten (cs ++ [[b0, b1]]) h]
    · simp only [isChunk] at hch
      have hb := valid3_bounds b0 b1 b2 hch
      have hflat : ((cs ++ [[b0, b1, b2]]).flatten).reverse =
          b2 :: b1 :: b0 :: cs.flatten.reverse := by simp
      rw [hflat, trimSpaceRightRev, if_pos (by omega)]
      have hrev : (b2 :: b1 :: b0 :: cs.flatten.reverse).reverse =
          (cs ++ [[b0, b1, b2]]).flatten := by simp
      rw [hrev, trimRightFunc_flatten (cs ++ [[b0, b1, b2]]) h]
    · simp only [isChunk] at hch
      have hb := valid4_bounds b0 b1 b2 b3 hch
      have hflat : ((cs ++ [[b0, b1, b2, b3]]).flatten).reverse =
          b3 :: b2 :: b1 :: b0 :: cs.flatten.reverse := by simp
      rw [hflat, trimSpaceRightRev, if_pos (by omega)]
      have hrev : (b3 :: b2 :: b1 :: b0 :: cs.flatten.reverse).reverse =
          (cs ++ [[b0, b1, b2, b3]]).flatten := by simp
      rw [hrev, trimRightFunc_flatten (cs ++ [[b0, b1, b2, b3]]) h]
    · simp [isChunk] at hch

theorem trimSpace_flatten (cs : List (List Nat))
    (h : ∀ c ∈ cs, isChunk c = true) :
    trimSpace cs.flatten = (trimChunksRight (trimChunksLeft cs)).flatten := by
  induction cs with
  | nil => simp [trimSpace, trimChunksLeft, trimChunksRight]
  | cons c cs ih =>
    have hch := h c (by simp)
    have hall : ∀ d ∈ cs, isChunk d = true := fun d hd => h d (by simp [hd])
    rcases c with _ | ⟨b0, _ | ⟨b1, _ | ⟨b2, _ | ⟨b3, _ | ⟨b4, r⟩⟩⟩⟩⟩
    · simp [isChunk] at hch
    · simp only [isChunk, decide_eq_true_eq] at hch
      have hflat : ([b0] :: cs).flatten = b0 :: cs.flatten := by simp
      rw [hflat, trimSpace, if_neg (by omega)]
      rw [trimChunksLeft, List.dropWhile_cons, spaceChunk_one b0 hch]
      by_cases hsp : asciiSpace b0 = true
      · rw [if_pos hsp, if_pos hsp]
        exact ih hall
      · simp only [Bool.not_eq_true] at hsp
        rw [if_neg (by simp [hsp]), if_neg (by simp [hsp])]
        have := trimSpaceRightRev_flatten ([b0] :: cs) h
        rw [hflat] at this
        calc (trimSpaceRightRev (b0 :: cs.flatten).reverse).reverse
            = (((trimChunksRight ([b0] :: cs)).flatten).reverse).reverse := by
              rw [this]
          _ = (trimChunksRight ([b0] :: cs)).flatten := by
              rw [List.reverse_reverse]
    · simp only [isChunk] at hch
      have hb := valid2_bounds b0 b1 hch
      have hflat : ([b0, b1] :: cs).flatten = b0 :: b1 :: cs.flatten := by simp
      rw [hflat, trimSpace, if_pos (by omega)]
      have h1 : b0 :: b1 :: cs.flatten = ([b0, b1] :: cs).flatten := by simp
      rw [h1, trimFunc_flatten ([b0, b1] :: cs) h]
    · simp only [isChunk] at hch
      have hb := valid3_bounds b0 b1 b2 hch
      have hflat : ([b0, b1, b2] :: cs).flatten = b0 :: b1 :: b2 :: cs.flatten := by
        simp
      rw [hflat, trimSpace, if_pos (by omega)]
      have h1 : b0 :: b1 :: b2 :: cs.flatten = ([b0, b1, b2] :: cs).flatten := by
        simp
      rw [h1, trimFunc_flatten ([b0, b1, b2] :: cs) h]
    · simp only [isChunk] at hch
      have hb := valid4_bounds b0 b1 b2 b3 hch
      have hflat : ([b0, b1, b2, b3] :: cs).flatten =
          b0 :: b1 :: b2 :: b3 :: cs.flatten := by simp
      rw [hflat, trimSpace, if_pos (by omega)]
      have h1 : b0 :: b1 :: b2 :: b3 :: cs.flatten =
          ([b0, b1, b2, b3] :: cs).flatten := by simp
      rw [h1, trimFunc_flatten ([b0, b1, b2, b3] :: cs) h]
    · simp [isChunk] at hch

theorem dropWhile_head_not (p : List Nat → Bool) (l : List (List Nat))
    (x : List Nat) (t : List (List Nat)) (h : l.dropWhile p = x :: t) :
    p x = false := by
  induction l with
  | nil => simp at h
  | cons c l ih =>
    rw [List.dropWhile_cons] at h
    by_cases hp : p c = true
    · rw [if_pos hp] at h
      exact ih h
    · simp only [Bool.not_eq_true] at hp
      rw [if_neg (by simp [hp])] at h
      cases h
      exact hp

theorem exists_pre_dropWhile (p : List Nat → Bool) (l : List (List Nat)) :
    ∃ pre, l = pre ++ l.dropWhile p := by
  induction l with
  | nil => exact ⟨[], rfl⟩
  | cons c l ih =>
    rw [List.dropWhile_cons]
    by_cases hp : p c = true
    · obtain ⟨pre, hpre⟩ := ih
      exact ⟨c :: pre, by simp [hp, ← hpre]⟩
    · simp only [Bool.not_eq_true] at hp
      exact ⟨[], by simp [hp]⟩

theorem mem_trimChunksLeft (cs : List (List Nat)) (c : List Nat)
    (h : c ∈ trimChunksLeft cs) : c ∈ cs :=
  (List.dropWhile_sublist spaceChunk).subset h

theorem mem_trimChunksRight (cs : List (List Nat)) (c : List Nat)
    (h : c ∈ trimChunksRight cs) : c ∈ cs := by
  unfold trimChunksRight at h
  rw [List.mem_reverse] at h
  have := (List.dropWhile_sublist spaceChunk).subset h
  rwa [List.mem_reverse] at this

theorem trimSpace_valid (s : List Nat) (h : utf8Valid s = true) :
    utf8Valid (trimSpace s) = true := by
  obtain ⟨cs, rfl, hall⟩ := utf8Valid_to_chunks s h
  rw [trimSpace_flatten cs hall]
  exact chunks_flatten_valid _ fun c hc =>
    hall c (mem_trimChunksLeft cs c (mem_trimChunksRight _ c hc))

theorem toValidUTF8_trimSpace (s : List Nat) (h : utf8Valid s = true) :
    toValidUTF8 (trimSpace s) = trimSpace s :=
  toValidUTF8_of_valid _ (trimSpace_valid s h)

theorem trimSpace_noEdge (s : List Nat) (h : utf8Valid s = true) :
    noEdgeWhitespace (trimSpace s) = true := by
  obtain ⟨cs, rfl, hall⟩ := utf8Valid_to_chunks s h
  rw [trimSpace_flatten cs hall]
  rcases hds : trimChunksRight (trimChunksLeft cs) with _ | ⟨d, ds⟩
  · simp [noEdgeWhitespace]
  · have hmemd : d ∈ cs :=
      mem_trimChunksLeft cs d (mem_trimChunksRight _ d (by simp [hds]))
    have hchd : isChunk d = true := hall d hmemd
    -- the head chunk of the right-trimmed list is the head of the
    -- left-trimmed list, which dropWhile guarantees is not whitespace
    have hes : ∃ q, trimChunksLeft cs = (d :: ds) ++ q := by
      obtain ⟨pre, hpre⟩ :=
        exists_pre_dropWhile spaceChunk (trimChunksLeft cs).reverse
      refine ⟨pre.reverse, ?_⟩
      have : (trimChunksLeft cs).reverse.reverse =
          (pre ++ (trimChunksLeft cs).reverse.dropWhile spaceChunk).reverse := by
        rw [← hpre]
      simpa [← hds, trimChunksRight] using this
    obtain ⟨q, hq⟩ := hes
    have hspd : spaceChunk d = false := by
      refine dropWhile_head_not spaceChunk cs d (ds ++ q) ?_
      simpa [trimChunksLeft] using hq
    -- the last chunk of the right-trimmed list is the head of the
    -- reversed dropWhile, which is not whitespace either
    rcases hrev : (trimChunksRight (trimChunksLeft cs)).reverse with _ | ⟨e, w⟩
    · rw [hds] at hrev
      simp at hrev
    · have hspe : spaceChunk e = false := by
        refine dropWhile_head_not spaceChunk (trimChunksLeft cs).reverse e w ?_
        have : trimChunksRight (trimChunksLeft cs) =
            ((trimChunksLeft cs).reverse.dropWhile spaceChunk).reverse := rfl
        rw [this, List.reverse_reverse] at hrev
        exact hrev
      have hmeme : e ∈ cs := by
        have : e ∈ trimChunksRight (trimChunksLeft cs) := by
          rw [← List.mem_reverse, hrev]
          simp
        exact mem_trimChunksLeft cs e (mem_trimChunksRight _ e this)
      have hche : isChunk e = true := hall e hmeme
      have hdecomp : trimChunksRight (trimChunksLeft cs) = w.reverse ++ [e] := by
        have h1 : (trimChunksRight (trimChunksLeft cs)).reverse.reverse =
            (e :: w).reverse := by rw [hrev]
        simpa using h1
      have hfront : decodeRune (d ++ ds.flatten) = (chunkRune d, d.length) :=
        decodeRune_chunk_front d hchd ds.flatten
      have hlast :
          decodeLastRune ((trimChunksRight (trimChunksLeft cs)).flatten) =
            (chunkRune e, e.length) := by
        rw [hdecomp]
        have : (w.reverse ++ [e]).flatten = w.reverse.flatten ++ e := by simp
        rw [this]
        exact decodeLastRune_append_chunk w.reverse.flatten e hche
      rw [hds] at hlast
      simp only [noEdgeWhitespace, hds, List.flatten_cons]
      rw [hfront]
      simp only [List.flatten_cons] at hlast
      rw [hlast]
      simp only [spaceChunk] at hspd hspe
      simp [hspd, hspe]

theorem chunks_getLast_ascii_dropLast (cs : List (List Nat))
    (h : ∀ c ∈ cs, isChunk c = true) (b : Nat)
    (hl : cs.flatten.getLast? = some b) (hb : b < 0x80) :
    utf8Valid cs.flatten.dropLast = true := by
  induction cs using List.reverseRecOn with
  | nil => simp at hl
  | append_singleton cs c ih =>
    have hch := h c (by simp)
    have hall : ∀ d ∈ cs, isChunk d = true := fun d hd => h d (by simp [hd])
    rcases c with _ | ⟨b0, _ | ⟨b1, _ | ⟨b2, _ | ⟨b3, _ | ⟨b4, r⟩⟩⟩⟩⟩
    · simp [isChunk] at hch
    · have hflat : (cs ++ [[b0]]).flatten = cs.flatten ++ [b0] := by simp
      rw [hflat, List.dropLast_concat]
      exact chunks_flatten_valid cs hall
    · simp only [isChunk] at hch
      have hbnd := valid2_bounds b0 b1 hch
      rw [show (cs ++ [[b0, b1]]).flatten = (cs.flatten ++ [b0]) ++ [b1] by simp,
        List.getLast?_concat] at hl
      cases hl
      omega
    · simp only [isChunk] at hch
      have hbnd := valid3_bounds b0 b1 b2 hch
      rw [show (cs ++ [[b0, b1, b2]]).flatten =
        (cs.flatten ++ [b0, b1]) ++ [b2] by simp, List.getLast?_concat] at hl
      cases hl
      omega
    · simp only [isChunk] at hch
      have hbnd := valid4_bounds b0 b1 b2 b3 hch
      rw [show (cs ++ [[b0, b1, b2, b3]]).flatten =
        (cs.flatten ++ [b0, b1, b2]) ++ [b3] by simp, List.getLast?_concat] at hl
      cases hl
      omega
    · simp [isChunk] at hch

theorem valid_dropLast_ascii (s : List Nat) (b : Nat)
    (h : utf8Valid s = true) (hl : s.getLast? = some b) (hb : b < 0x80) :
    utf8Valid s.dropLast = true := by
  obtain ⟨cs, rfl, hall⟩ := utf8Valid_to_chunks s h
  exact chunks_getLast_ascii_dropLast cs hall b hl hb

/-! ## Line scanning -/

theorem mem_dropCR (l : List Nat) (b : Nat) (h : b ∈ dropCR l) : b ∈ l := by
  unfold dropCR at h
  split at h
  · exact (List.dropLast_sublist l).subset h
  · exact h

theorem scanLinesAux_no_newline (data cur : List Nat)
    (hcur : ∀ b ∈ cur, b ≠ 0x0A) :
    ∀ l ∈ scanLinesAux data cur, ∀ b ∈ l, b ≠ 0x0A := by
  induction data generalizing cur with
  | nil =>
    intro l hl b hb
    simp only [scanLinesAux] at hl
    split at hl
    · simp at hl
    · simp only [List.mem_singleton] at hl
      subst hl
      exact hcur b (mem_dropCR cur b hb)
  | cons x data ih =>
    intro l hl b hb
    simp only [scanLinesAux] at hl
    by_cases hx : x = 0x0A
    · rw [if_pos hx] at hl
      rcases List.mem_cons.mp hl with rfl | hl
      · exact hcur b (mem_dropCR cur b hb)
      · exact ih [] (by simp) l hl b hb
    · rw [if_neg hx] at hl
      refine ih (cur ++ [x]) ?_ l hl b hb
      intro c hc
      rcases List.mem_append.mp hc with hc | hc
      · exact hcur c hc
      · simp only [List.mem_singleton] at hc
        subst hc
        exact hx

theorem scanLines_no_newline (data : List Nat) :
    ∀ l ∈ scanLines data, ∀ b ∈ l, b ≠ 0x0A :=
  scanLinesAux_no_newline data [] (by simp)

theorem scanLinesAux_all (data cur : List Nat) (h : ∀ b ∈ data, b ≠ 0x0A) :
    scanLinesAux data cur =
      if (cur ++ data).isEmpty then [] else [dropCR (cur ++ data)] := by
  induction data generalizing cur with
  | nil => simp [scanLinesAux]
  | cons x data ih =>
    have hx : x ≠ 0x0A := h x (by simp)
    simp only [scanLinesAux, if_neg hx]
    rw [ih (cur ++ [x]) fun b hb => h b (by simp [hb])]
    simp

theorem scanLines_single (data : List Nat) (hne : data ≠ [])
    (h : ∀ b ∈ data, b ≠ 0x0A) : scanLines data = [dropCR data] := by
  unfold scanLines
  rw [scanLinesAux_all data [] h]
  simp [hne]

theorem scanLinesAux_break (l rest cur : List Nat) (h : ∀ b ∈ l, b ≠ 0x0A) :
    scanLinesAux (l ++ 0x0A :: rest) cur =
      dropCR (cur ++ l) :: scanLinesAux rest [] := by
  induction l generalizing cur with
  | nil => simp [scanLinesAux]
  | cons x l ih =>
    have hx : x ≠ 0x0A := h x (by simp)
    simp only [List.cons_append, scanLinesAux, if_neg hx, List.append_eq]
    rw [ih (cur ++ [x]) fun b hb => h b (by simp [hb])]
    simp

theorem scanLines_cons (l rest : List Nat) (h : ∀ b ∈ l, b ≠ 0x0A) :
    scanLines (l ++ 0x0A :: rest) = dropCR l :: scanLines rest := by
  unfold scanLines
  rw [scanLinesAux_break l rest [] h]
  simp

/-! ## The header matcher -/

theorem ensure_of_valid (l : List Nat) (h : utf8Valid l = true) :
    ensureValidUTF8 l = l := by
  simp [ensureValidUTF8, h]

theorem ascii_peel (p r : List Nat) (hp : ∀ b ∈ p, b < 0x80)
    (h : utf8Valid (p ++ r) = true) : utf8Valid r = true := by
  induction p with
  | nil => simpa using h
  | cons x p ih =>
    rw [List.cons_append, utf8Valid_cons_ascii x _ (hp x (by simp))] at h
    exact ih (fun b hb => hp b (by simp [hb])) h

theorem mem_takeWhile_digit (l : List Nat) (b : Nat)
    (h : b ∈ l.takeWhile isDigit) : isDigit b = true := by
  induction l with
  | nil => simp at h
  | cons x l ih =>
    rw [List.takeWhile_cons] at h
    by_cases hx : isDigit x = true
    · rw [if_pos hx] at h
      rcases List.mem_cons.mp h with rfl | h
      · exact hx
      · exact ih h
    · rw [if_neg hx] at h
      simp at h

theorem takeWhile_all (p : Nat → Bool) (l : List Nat)
    (h : ∀ b ∈ l, p b = true) : l.takeWhile p = l := by
  induction l with
  | nil => simp
  | cons x l ih =>
    rw [List.takeWhile_cons, if_pos (h x (by simp))]
    rw [ih fun b hb => h b (by simp [hb])]

theorem matchHeader_inv (l : List Nat) (d g2 : List Nat)
    (h : matchHeader l = some (d, g2)) :
    ∃ rest rest2 rest3,
      l = 0x3A :: 0x20 :: rest ∧
      d = rest.takeWhile isDigit ∧ 10 ≤ d.length ∧
      rest.dropWhile isDigit = 0x3A :: rest2 ∧
      1 ≤ (rest2.takeWhile isDigit).length ∧
      rest2.dropWhile isDigit = 0x3B :: rest3 ∧
      g2 = rest3.takeWhile (fun b => b ≠ 0x0A) ∧ g2 ≠ [] := by
  rw [matchHeader.eq_def] at h
  split at h
  · rename_i rest
    simp only [] at h
    split at h
    · simp at h
    · rename_i h10
      split at h
      · rename_i rest2 hdrop
        split at h
        · simp at h
        · rename_i h1
          split at h
          · rename_i rest3 hdrop2
            split at h
            · simp at h
            · rename_i hg2
              simp only [Option.some.injEq, Prod.mk.injEq] at h
              obtain ⟨hd, hg⟩ := h
              refine ⟨rest, rest2, rest3, rfl, hd.symm, ?_, hdrop, by omega,
                hdrop2, hg.symm, ?_⟩
              · rw [hd.symm]
                omega
              rw [← hg]
              simpa [List.isEmpty_iff] using hg2
          · simp at h
      · simp at h
  · simp at h

theorem isDigit_ascii (b : Nat) (h : isDigit b = true) : b < 0x80 := by
  simp [isDigit] at h
  omega

theorem matchHeader_g2 (l d g2 : List Nat) (hv : utf8Valid l = true)
    (hnl : ∀ b ∈ l, b ≠ 0x0A) (h : matchHeader l = some (d, g2)) :
    utf8Valid g2 = true ∧ g2 ≠ [] := by
  obtain ⟨rest, rest2, rest3, hl, hd, hdlen, hdrop, h1, hdrop2, hg, hgne⟩ :=
    matchHeader_inv l d g2 h
  have hrest : rest = rest.takeWhile isDigit ++ (0x3A :: rest2) := by
    rw [← hdrop, List.takeWhile_append_dropWhile]
  have hrest2 : rest2 = rest2.takeWhile isDigit ++ (0x3B :: rest3) := by
    rw [← hdrop2, List.takeWhile_append_dropWhile]
  have hldecomp : l = (0x3A :: 0x20 :: (rest.takeWhile isDigit ++
      0x3A :: (rest2.takeWhile isDigit ++ [0x3B]))) ++ rest3 := by
    rw [hl]
    conv_lhs => rw [hrest, hrest2]
    simp
  have hval3 : utf8Valid rest3 = true := by
    refine ascii_peel _ rest3 ?_ (by rw [← hldecomp]; exact hv)
    intro b hb
    simp only [List.mem_cons, List.mem_append, List.mem_singleton] at hb
    rcases hb with rfl | rfl | hb | rfl | hb | rfl | hb
    · omega
    · omega
    · exact isDigit_ascii b (mem_takeWhile_digit rest b hb)
    · omega
    · exact isDigit_ascii b (mem_takeWhile_digit rest2 b hb)
    · omega
    · simp at hb
  have hnl3 : ∀ b ∈ rest3, b ≠ 0x0A := by
    intro b hb
    refine hnl b ?_
    rw [hldecomp]
    simp [hb]
  have hg2 : g2 = rest3 := by
    rw [hg]
    refine takeWhile_all _ rest3 ?_
    intro b hb
    simpa using hnl3 b hb
  exact ⟨by rw [hg2]; exact hval3, hgne⟩

/-! ## The parsing loop -/

theorem flushState_parseStep_header (st : ParseState) (l d g2 : List Nat)
    (hv : utf8Valid l = true) (hnl : ∀ b ∈ l, b ≠ 0x0A)
    (hm : matchHeader l = some (d, g2)) :
    flushState (parseStep st l) = flushState st ++ [recordOfLine l] := by
  obtain ⟨hg2v, hg2ne⟩ := matchHeader_g2 l d g2 hv hnl hm
  have htv : toValidUTF8 g2 = g2 := toValidUTF8_of_valid g2 hg2v
  have hfin : finalizeCommand g2 = trimSpace g2 := toValidUTF8_trimSpace g2 hg2v
  simp only [parseStep]
  rw [ensure_of_valid l hv, hm]
  simp only [flushState, recordOfLine, hm, htv, hfin]
  rw [if_pos (List.length_pos.mpr hg2ne)]

theorem parseLoop_headers (ls : List (List Nat)) (st : ParseState)
    (h : ∀ l ∈ ls, headerShaped l = true ∧ ∀ b ∈ l, b ≠ 0x0A) :
    flushState (ls.foldl parseStep st) =
      flushState st ++ ls.map recordOfLine := by
  induction ls generalizing st with
  | nil => simp
  | cons l ls ih =>
    obtain ⟨hh, hnl⟩ := h l (by simp)
    simp only [headerShaped, Bool.and_eq_true, Option.isSome_iff_exists] at hh
    obtain ⟨hv, ⟨d, g2⟩, hm⟩ := hh
    rw [List.foldl_cons, ih (parseStep st l) fun x hx => h x (by simp [hx]),
      flushState_parseStep_header st l d g2 hv hnl hm]
    simp

theorem ascii_valid (s : List Nat) (h : ∀ b ∈ s, b < 0x80) :
    utf8Valid s = true := by
  induction s with
  | nil => simp [utf8Valid]
  | cons x s ih =>
    rw [utf8Valid_cons_ascii x s (h x (by simp))]
    exact ih fun b hb => h b (by simp [hb])

theorem takeWhile_append_stop (p : Nat → Bool) (a : List Nat) (x : Nat)
    (t : List Nat) (ha : ∀ b ∈ a, p b = true) (hx : p x = false) :
    (a ++ x :: t).takeWhile p = a ∧ (a ++ x :: t).dropWhile p = x :: t := by
  induction a with
  | nil => simp [List.takeWhile_cons, List.dropWhile_cons, hx]
  | cons y a ih =>
    have hy : p y = true := ha y (by simp)
    obtain ⟨iht, ihd⟩ := ih fun b hb => ha b (by simp [hb])
    constructor
    · rw [List.cons_append, List.takeWhile_cons, if_pos hy, iht]
    · rw [List.cons_append, List.dropWhile_cons, if_pos hy, ihd]

theorem matchHeader_mk (d s2 r : List Nat)
    (hd : ∀ b ∈ d, isDigit b = true) (hdlen : 10 ≤ d.length)
    (hs2 : ∀ b ∈ s2, isDigit b = true) (hs2len : 1 ≤ s2.length)
    (hrne : r ≠ []) (hrnl : ∀ b ∈ r, b ≠ 0x0A) :
    matchHeader (mkHeaderLine d s2 r) = some (d, r) := by
  obtain ⟨ht1, hd1⟩ :=
    takeWhile_append_stop isDigit d 0x3A (s2 ++ 0x3B :: r) hd (by decide)
  obtain ⟨ht2, hd2⟩ :=
    takeWhile_append_stop isDigit s2 0x3B r hs2 (by decide)
  rw [mkHeaderLine, matchHeader.eq_def]
  simp only [ht1, hd1, ht2, hd2]
  rw [if_neg (by omega)]
  rw [if_neg (by omega)]
  rw [takeWhile_all _ r (by intro b hb; simpa using hrnl b hb)]
  rw [if_neg (by simpa [List.isEmpty_iff] using hrne)]

theorem matchHeader_mk_empty (d s2 : List Nat)
    (hd : ∀ b ∈ d, isDigit b = true)
    (hs2 : ∀ b ∈ s2, isDigit b = true) :
    matchHeader (mkHeaderLine d s2 []) = none := by
  obtain ⟨ht1, hd1⟩ :=
    takeWhile_append_stop isDigit d 0x3A (s2 ++ 0x3B :: []) hd (by decide)
  obtain ⟨ht2, hd2⟩ :=
    takeWhile_append_stop isDigit s2 0x3B [] hs2 (by decide)
  rw [mkHeaderLine, matchHeader.eq_def]
  simp only [ht1, hd1, ht2, hd2]
  by_cases h10 : d.length < 10
  · rw [if_pos h10]
  · rw [if_neg h10]
    by_cases h1 : s2.length < 1
    · rw [if_pos h1]
    · rw [if_neg h1]
      simp

theorem mkHeaderLine_no_newline (d s2 r : List Nat)
    (hd : ∀ b ∈ d, isDigit b = true) (hs2 : ∀ b ∈ s2, isDigit b = true)
    (hrnl : ∀ b ∈ r, b ≠ 0x0A) :
    ∀ b ∈ mkHeaderLine d s2 r, b ≠ 0x0A := by
  intro b hb
  simp only [mkHeaderLine, List.mem_cons, List.mem_append] at hb
  rcases hb with rfl | rfl | hb | rfl | hb | rfl | hb
  · omega
  · omega
  · have := isDigit_ascii b (hd b hb)
    have h9 : isDigit b = true := hd b hb
    simp [isDigit] at h9
    omega
  · omega
  · have h9 : isDigit b = true := hs2 b hb
    simp [isDigit] at h9
    omega
  · omega
  · exact hrnl b hb

theorem mkHeaderLine_ascii (d s2 r : List Nat)
    (hd : ∀ b ∈ d, isDigit b = true) (hs2 : ∀ b ∈ s2, isDigit b = true)
    (hr : ∀ b ∈ r, b < 0x80) :
    ∀ b ∈ mkHeaderLine d s2 r, b < 0x80 := by
  intro b hb
  simp only [mkHeaderLine, List.mem_cons, List.mem_append] at hb
  rcases hb with rfl | rfl | hb | rfl | hb | rfl | hb
  · omega
  · omega
  · exact isDigit_ascii b (hd b hb)
  · omega
  · exact isDigit_ascii b (hs2 b hb)
  · omega
  · exact hr b hb

/-! ## The loop invariant for command well-formedness -/

theorem finalizeCommand_good (cur : List Nat) (h : utf8Valid cur = true) :
    utf8Valid (finalizeCommand cur) = true ∧
      noEdgeWhitespace (finalizeCommand cur) = true := by
  unfold finalizeCommand
  rw [toValidUTF8_trimSpace cur h]
  exact ⟨trimSpace_valid cur h, trimSpace_noEdge cur h⟩

theorem parseStep_good (st : ParseState) (l : List Nat) (h : goodState st) :
    goodState (parseStep st l) := by
  obtain ⟨hcc, hent⟩ := h
  rcases hm : matchHeader (ensureValidUTF8 l) with _ | ⟨d, g2⟩
  · simp only [parseStep, hm]
    by_cases hlen : st.currentCommand.length > 0
    · rw [if_pos hlen]
      by_cases hbs : st.currentCommand.getLast? = some 0x5C
      · rw [if_pos hbs]
        refine ⟨?_, hent⟩
        exact utf8Valid_append _ _
          (valid_dropLast_ascii st.currentCommand 0x5C hcc hbs (by omega))
          (utf8Valid_ensure l)
      · rw [if_neg hbs]
        refine ⟨?_, hent⟩
        have : (0x0A : Nat) :: ensureValidUTF8 l = [0x0A] ++ ensureValidUTF8 l :=
          rfl
        rw [this]
        exact utf8Valid_append _ _ hcc
          (utf8Valid_append _ _ (by decide) (utf8Valid_ensure l))
    · rw [if_neg hlen]
      exact ⟨hcc, hent⟩
  · simp only [parseStep, hm]
    refine ⟨utf8Valid_toValidUTF8 g2, ?_⟩
    intro e he
    by_cases hlen : st.currentCommand.length > 0
    · rw [if_pos hlen] at he
      rcases List.mem_append.mp he with he | he
      · exact hent e he
      · simp only [List.mem_singleton] at he
        subst he
        exact finalizeCommand_good st.currentCommand hcc
    · rw [if_neg hlen] at he
      exact hent e he

theorem parseLoop_good (ls : List (List Nat)) (st : ParseState)
    (h : goodState st) : goodState (ls.foldl parseStep st) := by
  induction ls generalizing st with
  | nil => exact h
  | cons l ls ih => exact ih (parseStep st l) (parseStep_good st l h)

theorem flushState_good (st : ParseState) (h : goodState st) :
    ∀ e ∈ flushState st,
      utf8Valid e.Command = true ∧ noEdgeWhitespace e.Command = true := by
  obtain ⟨hcc, hent⟩ := h
  intro e he
  unfold flushState at he
  split at he
  · rcases List.mem_append.mp he with he | he
    · exact hent e he
    · simp only [List.mem_singleton] at he
      subst he
      exact finalizeCommand_good st.currentCommand hcc
  · exact hent e he

/-! ## Discarded orphan continuations -/

theorem parseStep_orphan (entries : List HistoryEntry) (ts : Int)
    (l : List Nat) (h : (matchHeader (ensureValidUTF8 l)).isSome = false) :
    parseStep ⟨entries, [], ts⟩ l = ⟨entries, [], ts⟩ := by
  rcases hm : matchHeader (ensureValidUTF8 l) with _ | ⟨d, g2⟩
  · simp [parseStep, hm]
  · rw [hm] at h
    simp at h

theorem parseLoop_orphans (ls1 ls2 : List (List Nat)) (readErr : Bool)
    (h : ∀ l ∈ ls1, (matchHeader (ensureValidUTF8 l)).isSome = false) :
    parseLines (ls1 ++ ls2) readErr = parseLines ls2 readErr := by
  unfold parseLines
  rw [List.foldl_append]
  have hinit : ls1.foldl parseStep ⟨[], [], 0⟩ = ⟨[], [], 0⟩ := by
    induction ls1 with
    | nil => rfl
    | cons l ls ih =>
      rw [List.foldl_cons, parseStep_orphan [] 0 l (h l (by simp))]
      exact ih fun x hx => h x (by simp [hx])
  rw [hinit]

/-! ## Keeping edge bytes under trimming -/

theorem trimSpaceRightRev_keep (y : Nat) (w : List Nat) (hy1 : y < 0x80)
    (hy2 : asciiSpace y = false) : trimSpaceRightRev (y :: w) = y :: w := by
  rw [trimSpaceRightRev, if_neg (by omega), if_neg (by simp [hy2])]

theorem trimSpace_keep (x : Nat) (a : List Nat) (y : Nat)
    (hx1 : x < 0x80) (hx2 : asciiSpace x = false)
    (hy1 : y < 0x80) (hy2 : asciiSpace y = false) :
    trimSpace (x :: (a ++ [y])) = x :: (a ++ [y]) := by
  rw [trimSpace, if_neg (by omega), if_neg (by simp [hx2])]
  have hrev : (x :: (a ++ [y])).reverse = y :: (x :: a).reverse := by simp
  rw [hrev, trimSpaceRightRev_keep y _ hy1 hy2]
  simp

/-! ## Claim theorems -/

/-- C1: for every input consisting only of valid header lines, parseHistory
returns exactly one record per header line, in input order, each carrying the
timestamp parsed from its digit field and the whitespace-trimmed remainder as
its command. -/
theorem c1_header_only_records (data : List Nat)
    (h : ∀ l ∈ scanLines data, headerShaped l = true) :
    parseHistory data false = .ok ((scanLines data).map recordOfLine) := by
  unfold parseHistory parseLines
  simp only []
  rw [parseLoop_headers (scanLines data) ⟨[], [], 0⟩ fun l hl =>
    ⟨h l hl, fun b hb => scanLines_no_newline data l hl b hb⟩]
  simp [flushState]

/-- Witness for C1 on a concrete two-header-line stream. -/
theorem c1_witness :
    (∀ l ∈ scanLines (strBytes ": 1700000000:0;ls -la\n: 1700000001:5;pwd"),
      headerShaped l = true) ∧
    parseHistory (strBytes ": 1700000000:0;ls -la\n: 1700000001:5;pwd") false =
      .ok [⟨1700000000, strBytes "ls -la"⟩, ⟨1700000001, strBytes "pwd"⟩] :=
  ⟨by decide, by
    rw [c1_header_only_records _ (by decide)]
    decide⟩

/-- C2 counterexample: on the two-line input whose first line ends in
a space followed by a backslash, the command is NOT the claimed
`git commit -m 'fixbug'`: the escaped join removes only the backslash and
keeps the space before it. -/
theorem c2_counterexample :
    ¬ parseHistory (strBytes ": 1700000100:0;git commit -m " ++
        0x27 :: strBytes "fix " ++ 0x5C :: 0x0A :: strBytes "bug" ++ [0x27])
      false =
      .ok [⟨1700000100,
        strBytes "git commit -m " ++ 0x27 :: strBytes "fixbug" ++ [0x27]⟩] := by
  decide

/-- C2 amended: on that input the escaped join removes the trailing
backslash and appends the continuation directly, with no separator and no
embedded newline, producing exactly one record with timestamp 1700000100
and command `git commit -m 'fix bug'` — the space that preceded the
removed backslash is kept. -/
theorem c2_escaped_join :
    parseHistory (strBytes ": 1700000100:0;git commit -m " ++
        0x27 :: strBytes "fix " ++ 0x5C :: 0x0A :: strBytes "bug" ++ [0x27])
      false =
      .ok [⟨1700000100,
        strBytes "git commit -m " ++ 0x27 :: strBytes "fix bug" ++ [0x27]⟩] := by
  decide

/-- C3: a non-backslash-terminated accumulated command followed by a
continuation line is joined with an inserted newline, the continuation
preserved verbatim. -/
theorem c3_literal_join :
    parseHistory (strBytes ": 1700000200:0;echo hello\nworld") false =
      .ok [⟨1700000200, strBytes "echo hello\nworld"⟩] := by
  decide

/-- C4: the window selector returns the input unchanged when the limit is
non-positive or at least the sequence length, and otherwise the suffix of
exactly `limit` records in original order, dropping the oldest ones. -/
theorem c4_applyLimitFilter_window (entries : List HistoryEntry) (limit : Int) :
    ((limit ≤ 0 ∨ (entries.length : Int) ≤ limit) →
      applyLimitFilter entries limit = entries) ∧
    (0 < limit → limit < (entries.length : Int) →
      (applyLimitFilter entries limit).length = limit.toNat ∧
      entries.take (entries.length - limit.toNat) ++
        applyLimitFilter entries limit = entries) := by
  constructor
  · intro h
    unfold applyLimitFilter
    rw [if_pos (by simpa using h)]
  · intro h1 h2
    unfold applyLimitFilter
    rw [if_neg (by simp; omega)]
    constructor
    · simp only [List.length_drop]
      omega
    · exact List.take_append_drop _ entries

/-- Witness for C4: a three-record sequence windowed to the last two, and
returned unchanged for a non-positive limit. -/
theorem c4_witness :
    (applyLimitFilter [⟨1, [0x61]⟩, ⟨2, [0x62]⟩, ⟨3, [0x63]⟩] 2).length = 2 ∧
    applyLimitFilter [⟨1, [0x61]⟩, ⟨2, [0x62]⟩, ⟨3, [0x63]⟩] 0 =
      [⟨1, [0x61]⟩, ⟨2, [0x62]⟩, ⟨3, [0x63]⟩] := by
  refine ⟨?_, ?_⟩
  · exact ((c4_applyLimitFilter_window
      [⟨1, [0x61]⟩, ⟨2, [0x62]⟩, ⟨3, [0x63]⟩] 2).2 (by decide) (by decide)).1
  · exact (c4_applyLimitFilter_window
      [⟨1, [0x61]⟩, ⟨2, [0x62]⟩, ⟨3, [0x63]⟩] 0).1 (Or.inl (by decide))

/-- C5 counterexample: a header whose 20-digit field exceeds the signed
64-bit range yields timestamp 9223372036854775807 (the `strconv.ParseInt`
range-error value), not the claimed 0. -/
theorem c5_counterexample :
    parseHistory (strBytes ": 99999999999999999999:0;x") false =
      .ok [⟨9223372036854775807, [0x78]⟩] ∧
    (9223372036854775807 : Int) ≠ 0 := by
  constructor
  · decide
  · decide

/-- C6: when the stream read fails, parseHistory returns only an error —
the caller never observes a partial record sequence, whatever was read
before the failure. -/
theorem c6_read_error_aborts (data : List Nat) :
    parseHistory data true = .error "error reading history data" := rfl

/-- C9: the empty input stream parses to an empty record sequence with no
error. -/
theorem c9_empty_stream : parseHistory [] false = .ok [] := rfl

/-- C7: every record returned by parseHistory carries a command that is
valid UTF-8 and has no leading or trailing whitespace rune, including the
final record emitted at end of stream. -/
theorem c7_commands_wellformed (data : List Nat) (readErr : Bool)
    (entries : List HistoryEntry)
    (h : parseHistory data readErr = .ok entries) :
    ∀ e ∈ entries,
      utf8Valid e.Command = true ∧ noEdgeWhitespace e.Command = true := by
  unfold parseHistory parseLines at h
  rcases readErr with _ | _
  · simp only [Bool.false_eq_true, if_false, Except.ok.injEq] at h
    subst h
    refine flushState_good _ (parseLoop_good (scanLines data) ⟨[], [], 0⟩ ?_)
    exact ⟨rfl, by simp⟩
  · simp at h

/-- Witness for C7: a concrete record whose raw remainder carried edge
whitespace. -/
theorem c7_witness :
    utf8Valid (strBytes "ls -la") = true ∧
      noEdgeWhitespace (strBytes "ls -la") = true := by
  have h := c7_commands_wellformed (strBytes ": 1700000000:0;  ls -la  ")
    false [⟨1700000000, strBytes "ls -la"⟩] (by decide)
  exact h ⟨1700000000, strBytes "ls -la"⟩ (by decide)

/-- C8: continuation-shaped lines appearing before any header line are
silently discarded: parsing the stream is the same as parsing only the
remaining lines, with no record and no error from the orphans. -/
theorem c8_orphans_discarded (data : List Nat) (ls1 ls2 : List (List Nat))
    (readErr : Bool) (hsplit : scanLines data = ls1 ++ ls2)
    (h : ∀ l ∈ ls1, (matchHeader (ensureValidUTF8 l)).isSome = false) :
    parseHistory data readErr = parseLines ls2 readErr := by
  unfold parseHistory
  rw [hsplit]
  exact parseLoop_orphans ls1 ls2 readErr h

/-- Witness for C8: an orphan continuation line ahead of a header line. -/
theorem c8_witness :
    parseHistory (strBytes "orphan\n: 1700000000:0;ls") false =
      parseLines [strBytes ": 1700000000:0;ls"] false :=
  c8_orphans_discarded (strBytes "orphan\n: 1700000000:0;ls")
    [strBytes "orphan"] [strBytes ": 1700000000:0;ls"] false
    (by decide) (by decide)

theorem parseHistory_single_header (d s2 r : List Nat)
    (hd : ∀ b ∈ d, isDigit b = true) (hdlen : 10 ≤ d.length)
    (hs2 : ∀ b ∈ s2, isDigit b = true) (hs2len : 1 ≤ s2.length)
    (hr : utf8Valid r = true) (hrne : r ≠ []) (hrnl : ∀ b ∈ r, b ≠ 0x0A)
    (hrcr : r.getLast? ≠ some 0x0D) :
    parseHistory (mkHeaderLine d s2 r) false =
      .ok [⟨parseInt64Digits d, trimSpace r⟩] := by
  have hsplit : mkHeaderLine d s2 r = mkHeaderLine d s2 [] ++ r := by
    simp [mkHeaderLine]
  have hnl := mkHeaderLine_no_newline d s2 r hd hs2 hrnl
  have hne : mkHeaderLine d s2 r ≠ [] := by simp [mkHeaderLine]
  have hvline : utf8Valid (mkHeaderLine d s2 r) = true := by
    rw [hsplit]
    exact utf8Valid_append _ _
      (ascii_valid _ (mkHeaderLine_ascii d s2 [] hd hs2 (by simp))) hr
  have hlast : (mkHeaderLine d s2 r).getLast? = r.getLast? := by
    rw [hsplit, List.getLast?_append]
    have hs : r.getLast?.isSome = true := List.getLast?_isSome.mpr hrne
    rcases hx : r.getLast? with _ | x
    · rw [hx] at hs
      simp at hs
    · rfl
  have hdropcr : dropCR (mkHeaderLine d s2 r) = mkHeaderLine d s2 r := by
    unfold dropCR
    rw [if_neg (by rw [hlast]; exact hrcr)]
  have hm := matchHeader_mk d s2 r hd hdlen hs2 hs2len hrne hrnl
  have htv : toValidUTF8 r = r := toValidUTF8_of_valid r hr
  unfold parseHistory
  rw [scanLines_single _ hne hnl, hdropcr]
  unfold parseLines
  simp only [List.foldl_cons, List.foldl_nil, parseStep]
  rw [ensure_of_valid _ hvline, hm]
  simp only [flushState, finalizeCommand, htv]
  rw [toValidUTF8_trimSpace r hr, if_pos (List.length_pos.mpr hrne)]
  simp

/-- C5 amended: a header line whose digit field exceeds the signed 64-bit
range does not make parsing fail: the record is still produced, keeping
its (trimmed) command text, and its timestamp is the clamped value
2^63 - 1 = 9223372036854775807 that `strconv.ParseInt` returns alongside
the ignored range error — not 0. -/
theorem c5_overflow_clamped (d s2 r : List Nat)
    (hd : ∀ b ∈ d, isDigit b = true) (hdlen : 10 ≤ d.length)
    (hover : 2 ^ 63 ≤ digitsVal d)
    (hs2 : ∀ b ∈ s2, isDigit b = true) (hs2len : 1 ≤ s2.length)
    (hr : utf8Valid r = true) (hrne : r ≠ []) (hrnl : ∀ b ∈ r, b ≠ 0x0A)
    (hrcr : r.getLast? ≠ some 0x0D) :
    parseHistory (mkHeaderLine d s2 r) false =
      .ok [⟨(2 : Int) ^ 63 - 1, trimSpace r⟩] := by
  rw [parseHistory_single_header d s2 r hd hdlen hs2 hs2len hr hrne hrnl hrcr]
  have hne : d ≠ [] := by
    intro hd0
    rw [hd0] at hdlen
    simp at hdlen
  have hall : d.all isDigit = true := by
    rw [List.all_eq_true]
    exact hd
  unfold parseInt64Digits
  rw [if_neg (by simp [hne, hall]), if_pos hover]

/-- Witness for the amended C5: a 20-digit timestamp field clamps to the
maximum 64-bit signed integer. -/
theorem c5_witness :
    parseHistory (mkHeaderLine (strBytes "99999999999999999999") [0x30] [0x78])
      false = .ok [⟨9223372036854775807, [0x78]⟩] := by
  rw [c5_overflow_clamped (strBytes "99999999999999999999") [0x30] [0x78]
    (by decide) (by decide) (by decide) (by decide) (by decide) (by decide)
    (by decide) (by decide) (by decide)]
  decide

/-- C10: a line carrying the header marker, a valid timestamp field and
secondary field and semicolon but an empty remainder is not classified as
a header: alone it yields no record (discarded, no error), and after a
header line it is merged into the open record as a literal continuation,
its timestamp ignored. -/
theorem c10_empty_remainder (d s2 : List Nat)
    (hd : ∀ b ∈ d, isDigit b = true) (hdlen : 10 ≤ d.length)
    (hs2 : ∀ b ∈ s2, isDigit b = true) (hs2len : 1 ≤ s2.length) :
    matchHeader (mkHeaderLine d s2 []) = none ∧
    parseHistory (mkHeaderLine d s2 []) false = .ok [] ∧
    parseHistory (strBytes ": 1234567890:0;cmd" ++ 0x0A :: mkHeaderLine d s2 [])
      false =
      .ok [⟨1234567890, strBytes "cmd" ++ 0x0A :: mkHeaderLine d s2 []⟩] := by
  have hmk := matchHeader_mk_empty d s2 hd hs2
  have hnl : ∀ b ∈ mkHeaderLine d s2 [], b ≠ 0x0A :=
    mkHeaderLine_no_newline d s2 [] hd hs2 (by simp)
  have hascii : ∀ b ∈ mkHeaderLine d s2 [], b < 0x80 :=
    mkHeaderLine_ascii d s2 [] hd hs2 (by simp)
  have hv : utf8Valid (mkHeaderLine d s2 []) = true := ascii_valid _ hascii
  have hne : mkHeaderLine d s2 [] ≠ [] := by simp [mkHeaderLine]
  have hlastmk : (mkHeaderLine d s2 []).getLast? = some 0x3B := by
    have hsh : mkHeaderLine d s2 [] =
        (0x3A :: 0x20 :: (d ++ 0x3A :: s2)) ++ [0x3B] := by
      simp [mkHeaderLine]
    rw [hsh, List.getLast?_concat]
  have hdropcr : dropCR (mkHeaderLine d s2 []) = mkHeaderLine d s2 [] := by
    unfold dropCR
    rw [if_neg (by rw [hlastmk]; simp)]
  have hscan1 : scanLines (mkHeaderLine d s2 []) = [mkHeaderLine d s2 []] := by
    rw [scanLines_single _ hne hnl, hdropcr]
  have hstep_none : parseStep ⟨[], [], 0⟩ (mkHeaderLine d s2 []) = ⟨[], [], 0⟩ :=
    parseStep_orphan [] 0 _ (by rw [ensure_of_valid _ hv, hmk]; rfl)
  refine ⟨hmk, ?_, ?_⟩
  · unfold parseHistory
    rw [hscan1]
    unfold parseLines
    simp only [List.foldl_cons, List.foldl_nil, hstep_none]
    rfl
  · have hnl0 : ∀ b ∈ strBytes ": 1234567890:0;cmd", b ≠ 0x0A := by decide
    have hscan : scanLines
        (strBytes ": 1234567890:0;cmd" ++ 0x0A :: mkHeaderLine d s2 []) =
        strBytes ": 1234567890:0;cmd" :: [mkHeaderLine d s2 []] := by
      rw [scanLines_cons _ _ hnl0, hscan1]
      congr 1
    unfold parseHistory
    rw [hscan]
    unfold parseLines
    simp only [List.foldl_cons, List.foldl_nil]
    have hstep1 : parseStep ⟨[], [], 0⟩ (strBytes ": 1234567890:0;cmd") =
        ⟨[], strBytes "cmd", 1234567890⟩ := by decide
    rw [hstep1]
    have hstep2 : parseStep ⟨[], strBytes "cmd", 1234567890⟩
        (mkHeaderLine d s2 []) =
        ⟨[], strBytes "cmd" ++ 0x0A :: mkHeaderLine d s2 [], 1234567890⟩ := by
      simp only [parseStep]
      rw [ensure_of_valid _ hv, hmk]
      simp only []
      rw [if_pos (by decide), if_neg (by decide)]
    rw [hstep2]
    have hccascii :
        ∀ b ∈ strBytes "cmd" ++ 0x0A :: mkHeaderLine d s2 [], b < 0x80 := by
      intro b hb
      rcases List.mem_append.mp hb with hb | hb
      · have hcmd : ∀ c ∈ strBytes "cmd", c < 0x80 := by decide
        exact hcmd b hb
      · rcases List.mem_cons.mp hb with rfl | hb
        · omega
        · exact hascii b hb
    have hccv : utf8Valid (strBytes "cmd" ++ 0x0A :: mkHeaderLine d s2 []) =
        true := ascii_valid _ hccascii
    have hshape : strBytes "cmd" ++ 0x0A :: mkHeaderLine d s2 [] =
        0x63 :: (([0x6D, 0x64, 0x0A, 0x3A, 0x20] ++ (d ++ 0x3A :: s2)) ++
          [0x3B]) := by
      have hcmd : strBytes "cmd" = [0x63, 0x6D, 0x64] := by decide
      rw [hcmd]
      simp [mkHeaderLine]
    have htrim : trimSpace (strBytes "cmd" ++ 0x0A :: mkHeaderLine d s2 []) =
        strBytes "cmd" ++ 0x0A :: mkHeaderLine d s2 [] := by
      rw [hshape]
      exact trimSpace_keep 0x63 _ 0x3B (by omega) (by decide) (by omega)
        (by decide)
    have hcclen : (strBytes "cmd" ++ 0x0A :: mkHeaderLine d s2 []).length > 0 := by
      refine List.length_pos.mpr ?_
      simp
    simp only [flushState, finalizeCommand]
    rw [if_pos hcclen, htrim, toValidUTF8_of_valid _ hccv]
    rfl

/-- Witness for C10 at a concrete timestamp and secondary field. -/
theorem c10_witness :
    matchHeader (mkHeaderLine (strBytes "1234567890") [0x30] []) = none ∧
    parseHistory (mkHeaderLine (strBytes "1234567890") [0x30] []) false =
      .ok [] ∧
    parseHistory (strBytes ": 1234567890:0;cmd" ++
        0x0A :: mkHeaderLine (strBytes "1234567890") [0x30] []) false =
      .ok [⟨1234567890, strBytes "cmd" ++
        0x0A :: mkHeaderLine (strBytes "1234567890") [0x30] []⟩] :=
  c10_empty_remainder (strBytes "1234567890") [0x30] (by decide) (by decide)
    (by decide) (by decide)
